import Mathlib

/-!
Verification development for the moonandsun analytical engine (src/app.py).

Modelling conventions.
Python floats are modelled as rationals, so float modulo becomes pyMod and
Python round (round half to even) becomes pyRound.  Python strings are
modelled as lists of characters.  Python dicts are modelled as association
lists in insertion order (dict key order is insertion order); where a claim
needs the dict property that keys never repeat, a Nodup hypothesis on the
key list is added.  Python sets are modelled as duplicate-free lists kept in
insertion order; the code sorts every set before returning it, so the model
iteration order never influences a returned value.  Python list.sort and
sorted are stable sorts; they are modelled by a stable insertion sort, which
produces the same list as any stable sort for the same ordering.
-/

abbrev PyStr := List Char

/-- Python float modulo a % b for rationals: remainder with the sign of the
divisor, so for b positive the result lies in the interval from 0 to b. -/
def pyMod (a b : ℚ) : ℚ := a - b * ⌊a / b⌋

/-- Python round on a rational: nearest integer, halves to even. -/
def pyRound (q : ℚ) : ℤ :=
  if q - (⌊q⌋ : ℚ) < 1/2 then ⌊q⌋
  else if 1/2 < q - (⌊q⌋ : ℚ) then ⌊q⌋ + 1
  else if ⌊q⌋ % 2 = 0 then ⌊q⌋ else ⌊q⌋ + 1

/-- Strict lexicographic order on lists from a strict order on elements.
Models Python comparison of strings (lists of code points) and of tuples. -/
def lexLt (lt : α → α → Bool) : List α → List α → Bool
  | [], [] => false
  | [], _ :: _ => true
  | _ :: _, [] => false
  | a :: as, b :: bs => if lt a b then true else if lt b a then false else lexLt lt as bs

/-- Strict order on characters by code point, as Python compares strings. -/
def charLt (a b : Char) : Bool := decide (a.toNat < b.toNat)

/-- Python string comparison. -/
def strLt : PyStr → PyStr → Bool := lexLt charLt

/-- Python comparison of tuples of strings. -/
def tupLt : List PyStr → List PyStr → Bool := lexLt strLt

/-- Stable insertion: x is placed before the first element that is not
strictly before it.  lt is the strict comes-first relation. -/
def insertS (lt : α → α → Bool) (x : α) : List α → List α
  | [] => [x]
  | y :: ys => if lt y x then y :: insertS lt x ys else x :: y :: ys

/-- Stable insertion sort; for a total preorder it returns the same list as
Python sorted / list.sort (both stable). -/
def sortS (lt : α → α → Bool) : List α → List α
  | [] => []
  | x :: xs => insertS lt x (sortS lt xs)

/-- Python set.add modelled on a duplicate-free list kept in insertion
order. -/
def setInsert [DecidableEq α] (x : α) (l : List α) : List α :=
  if x ∈ l then l else l ++ [x]

/-- All unordered pairs of list elements in the order of the nested loops
for i in range(n), for j in range(i+1, n). -/
def pairList : List α → List (α × α)
  | [] => []
  | x :: xs => (xs.map fun y => (x, y)) ++ pairList xs

/-! ### The aspect configuration table (ASPECTS_INFO in src/app.py) -/

structure AspectInfo where
  angle : ℚ
  orb : ℚ
  type : PyStr
  keywords : PyStr
deriving DecidableEq, Repr

def ASPECTS_INFO : List (PyStr × AspectInfo) :=
  [ ("Conjunction".data, ⟨0, 8, "major".data, "blending, emphasis".data⟩),
    ("Opposition".data, ⟨180, 8, "major".data, "tension, awareness".data⟩),
    ("Square".data, ⟨90, 6, "major".data, "challenge, action".data⟩),
    ("Trine".data, ⟨120, 6, "major".data, "harmony, ease".data⟩),
    ("Sextile".data, ⟨60, 4, "major".data, "opportunity, cooperation".data⟩),
    ("Quincunx".data, ⟨150, 3, "minor".data, "adjustment, discomfort".data⟩),
    ("Semi-sextile".data, ⟨30, 2, "minor".data, "mild growth, awareness".data⟩),
    ("Semi-square".data, ⟨45, 2, "minor".data, "irritation, friction".data⟩),
    ("Sesquiquadrate".data, ⟨135, 2, "minor".data, "pressure, imbalance".data⟩) ]

/-! ### The aspect engine (angular_distance, compute_aspects) -/

/-- angular_distance from src/app.py. -/
def angular_distance (lon1 lon2 : ℚ) : ℚ :=
  let diff := pyMod |lon1 - lon2| 360
  if diff > 180 then 360 - diff else diff

structure Aspect where
  planet1 : PyStr
  planet2 : PyStr
  aspect : PyStr
  orb : ℚ
  strength : ℚ
  type : PyStr
  keywords : PyStr
  importance : PyStr
deriving DecidableEq, Repr

/-- The aspects one body pair contributes, in aspect table order: the inner
loop body of compute_aspects. -/
def mkPairAspects (p1 p2 : PyStr) (lon1 lon2 : ℚ) : List Aspect :=
  ASPECTS_INFO.filterMap fun ni =>
    let diff := angular_distance lon1 lon2
    let orb := |diff - ni.2.angle|
    if orb ≤ ni.2.orb then
      some { planet1 := p1, planet2 := p2, aspect := ni.1, orb := orb,
             strength := max 0 (1 - orb / ni.2.orb),
             type := ni.2.type, keywords := ni.2.keywords,
             importance := if orb ≤ 1/2 then "exact".data
                           else if orb ≤ 1 then "close".data else [] }
    else none

/-- The aspect list of compute_aspects before sorting: pair enumeration
order crossed with aspect table order (the discovery order). -/
def discoveryAspects (positions : List (PyStr × ℚ)) : List Aspect :=
  (pairList positions).flatMap fun pq => mkPairAspects pq.1.1 pq.2.1 pq.1.2 pq.2.2

/-- The comes-strictly-first relation of the final sort of compute_aspects:
sort(key=strength, reverse=True). -/
def aspBefore (a b : Aspect) : Bool := decide (b.strength < a.strength)

/-- compute_aspects from src/app.py.  The trailing stable sort by
descending strength is modelled by the stable insertion sort sortS. -/
def compute_aspects (positions : List (PyStr × ℚ)) : List Aspect :=
  sortS aspBefore (discoveryAspects positions)

example :
    compute_aspects [("Sun".data, 0), ("Moon".data, 90)] =
      [{ planet1 := "Sun".data, planet2 := "Moon".data, aspect := "Square".data,
         orb := 0, strength := 1, type := "major".data,
         keywords := "challenge, action".data, importance := "exact".data }] := by
  with_unfolding_all decide

/-! ### Generic facts about the stable insertion sort and the set model -/

theorem insertS_perm (lt : α → α → Bool) (x : α) (l : List α) :
    List.Perm (insertS lt x l) (x :: l) := by
  induction l with
  | nil => simp [insertS]
  | cons y ys ih =>
    by_cases h : lt y x = true
    · simpa [insertS, h] using ((ih.cons y).trans (List.Perm.swap x y ys))
    · simp [insertS, h]

theorem sortS_perm (lt : α → α → Bool) (l : List α) : List.Perm (sortS lt l) l := by
  induction l with
  | nil => simp [sortS]
  | cons x xs ih => exact (insertS_perm lt x (sortS lt xs)).trans (ih.cons x)

theorem mem_sortS {lt : α → α → Bool} {l : List α} {a : α} :
    a ∈ sortS lt l ↔ a ∈ l := (sortS_perm lt l).mem_iff

theorem insertS_pairwise {lt : α → α → Bool}
    (hA : ∀ a b, lt a b = true → lt b a = false)
    (hNT : ∀ x y z, lt z x = true → lt y x = false → lt z y = true)
    (x : α) {l : List α} (hl : l.Pairwise (fun a b => lt b a = false)) :
    (insertS lt x l).Pairwise (fun a b => lt b a = false) := by
  induction l with
  | nil => simp [insertS]
  | cons y ys ih =>
    rcases List.pairwise_cons.mp hl with ⟨hy, hys⟩
    by_cases h : lt y x = true
    · rw [insertS, if_pos h]
      refine List.pairwise_cons.mpr ⟨?_, ih hys⟩
      intro z hz
      rcases List.mem_cons.mp ((insertS_perm lt x ys).mem_iff.mp hz) with hzx | hzys
      · subst hzx; exact hA _ _ h
      · exact hy z hzys
    · have h' : lt y x = false := by simpa using h
      rw [insertS, if_neg h]
      refine List.pairwise_cons.mpr ⟨?_, hl⟩
      intro z hz
      rcases List.mem_cons.mp hz with hzy | hzys
      · subst hzy; exact h'
      · cases hzx : lt z x with
        | false => rfl
        | true =>
          have := hNT x y z hzx h'
          rw [hy z hzys] at this
          exact this.symm

theorem sortS_pairwise {lt : α → α → Bool}
    (hA : ∀ a b, lt a b = true → lt b a = false)
    (hNT : ∀ x y z, lt z x = true → lt y x = false → lt z y = true)
    (l : List α) : (sortS lt l).Pairwise (fun a b => lt b a = false) := by
  induction l with
  | nil => simp [sortS]
  | cons x xs ih => exact insertS_pairwise hA hNT x ih

theorem mem_setInsert [DecidableEq α] {x a : α} {l : List α} :
    a ∈ setInsert x l ↔ a = x ∨ a ∈ l := by
  unfold setInsert
  by_cases h : x ∈ l
  · simp only [if_pos h]
    constructor
    · exact fun hm => Or.inr hm
    · rintro (rfl | hm)
      · exact h
      · exact hm
  · simp [if_neg h, List.mem_append, or_comm]

theorem nodup_setInsert [DecidableEq α] {x : α} {l : List α} (hl : l.Nodup) :
    (setInsert x l).Nodup := by
  unfold setInsert
  by_cases h : x ∈ l
  · simpa [if_pos h] using hl
  · rw [if_neg h]
    refine List.Nodup.append hl (List.nodup_singleton x) ?_
    intro a ha hb
    rcases List.mem_singleton.mp hb with rfl
    exact h ha

/-! ### Claim C3: compute_aspects output order -/

theorem filter_strength_insertS (x : Aspect) (l : List Aspect) (s : ℚ) :
    (insertS aspBefore x l).filter (fun a => decide (a.strength = s)) =
      if x.strength = s then
        x :: l.filter (fun a => decide (a.strength = s))
      else l.filter (fun a => decide (a.strength = s)) := by
  induction l with
  | nil =>
    by_cases hx : x.strength = s <;> simp [insertS, List.filter, hx]
  | cons y ys ih =>
    by_cases h : aspBefore y x = true
    · have hy : ¬ (y.strength = s) ∨ ¬ (x.strength = s) := by
        by_cases hx : x.strength = s
        · left
          intro hys
          have : x.strength < y.strength := of_decide_eq_true h
          rw [hx, hys] at this
          exact lt_irrefl s this
        · right; exact hx
      rw [insertS, if_pos h]
      by_cases hx : x.strength = s
      · rcases hy with hny | hnx
        · simp only [List.filter, decide_eq_true_eq]
          rw [if_pos hx] at ih ⊢
          simp only [decide_eq_false hny]
          exact ih
        · exact absurd hx hnx
      · rw [if_neg hx] at ih ⊢
        by_cases hyy : y.strength = s
        · simp only [List.filter, decide_eq_true hyy, ih]
        · simp only [List.filter, decide_eq_false hyy, ih]
    · rw [insertS, if_neg h]
      by_cases hx : x.strength = s
      · rw [if_pos hx]
        simp only [List.filter, decide_eq_true hx]
      · rw [if_neg hx]
        simp only [List.filter, decide_eq_false hx]

theorem filter_strength_sortS (l : List Aspect) (s : ℚ) :
    (sortS aspBefore l).filter (fun a => decide (a.strength = s)) =
      l.filter (fun a => decide (a.strength = s)) := by
  induction l with
  | nil => simp [sortS]
  | cons x xs ih =>
    rw [sortS, filter_strength_insertS]
    by_cases hx : x.strength = s
    · rw [if_pos hx, ih]
      simp only [List.filter, decide_eq_true hx]
    · rw [if_neg hx, ih]
      simp only [List.filter, decide_eq_false hx]

theorem aspBefore_asym : ∀ a b, aspBefore a b = true → aspBefore b a = false := by
  intro a b h
  have hlt : b.strength < a.strength := of_decide_eq_true h
  exact decide_eq_false (not_lt.mpr hlt.le)

theorem aspBefore_negTrans :
    ∀ x y z : Aspect, aspBefore z x = true → aspBefore y x = false →
      aspBefore z y = true := by
  intro x y z hzx hyx
  have h1 : x.strength < z.strength := of_decide_eq_true hzx
  have h2 : ¬ x.strength < y.strength := of_decide_eq_false hyx
  exact decide_eq_true (lt_of_le_of_lt (not_lt.mp h2) h1)

/-- C3: for every positions map, compute_aspects returns the discovered
aspects sorted by non-increasing strength; aspects of equal strength keep
their discovery order (pair enumeration order crossed with aspect table
order, the list discoveryAspects); and the function is a pure function, so
two runs on identical input give the identical list. -/
theorem C3_compute_aspects_sorted_stable_deterministic
    (positions : List (PyStr × ℚ)) :
    (compute_aspects positions).Pairwise (fun a b => b.strength ≤ a.strength)
    ∧ (∀ s : ℚ, (compute_aspects positions).filter (fun a => decide (a.strength = s))
        = (discoveryAspects positions).filter (fun a => decide (a.strength = s)))
    ∧ compute_aspects positions = compute_aspects positions := by
  refine ⟨?_, ?_, rfl⟩
  · have h := sortS_pairwise aspBefore_asym aspBefore_negTrans (discoveryAspects positions)
    exact h.imp (fun hab => not_lt.mp (of_decide_eq_false hab))
  · intro s
    exact filter_strength_sortS (discoveryAspects positions) s

/-! ### Claim C4: invariants of every emitted aspect -/

theorem mem_compute_aspects {a : Aspect} {positions : List (PyStr × ℚ)} :
    a ∈ compute_aspects positions ↔ a ∈ discoveryAspects positions :=
  mem_sortS

theorem aspects_info_orb_pos :
    ∀ ni ∈ ASPECTS_INFO, (0 : ℚ) < ni.2.orb := by
  with_unfolding_all decide

theorem mem_mkPairAspects {a : Aspect} {p1 p2 : PyStr} {lon1 lon2 : ℚ}
    (ha : a ∈ mkPairAspects p1 p2 lon1 lon2) :
    ∃ ni ∈ ASPECTS_INFO,
      a = { planet1 := p1, planet2 := p2, aspect := ni.1,
            orb := |angular_distance lon1 lon2 - ni.2.angle|,
            strength := max 0 (1 - |angular_distance lon1 lon2 - ni.2.angle| / ni.2.orb),
            type := ni.2.type, keywords := ni.2.keywords,
            importance :=
              if |angular_distance lon1 lon2 - ni.2.angle| ≤ 1/2 then "exact".data
              else if |angular_distance lon1 lon2 - ni.2.angle| ≤ 1 then "close".data
              else [] }
        ∧ |angular_distance lon1 lon2 - ni.2.angle| ≤ ni.2.orb := by
  rcases List.mem_filterMap.mp ha with ⟨ni, hni, heq⟩
  by_cases hc : |angular_distance lon1 lon2 - ni.2.angle| ≤ ni.2.orb
  · refine ⟨ni, hni, ?_, hc⟩
    simp only [if_pos hc] at heq
    exact (Option.some.inj heq).symm
  · simp only [if_neg hc] at heq
    exact absurd heq (by simp)

/-- C4: every aspect emitted by compute_aspects has orb at most the maximum
orb of the matching definition in the aspect table, strength between 0 and
1, and importance tagged exact precisely when orb is at most 0.5, close
precisely when orb lies in (0.5, 1], and the empty tag precisely when
orb exceeds 1. -/
theorem C4_aspect_invariants (positions : List (PyStr × ℚ)) (a : Aspect)
    (ha : a ∈ compute_aspects positions) :
    ∃ info : AspectInfo, (a.aspect, info) ∈ ASPECTS_INFO ∧ a.orb ≤ info.orb
      ∧ 0 ≤ a.strength ∧ a.strength ≤ 1
      ∧ (a.importance = "exact".data ↔ a.orb ≤ 1/2)
      ∧ (a.importance = "close".data ↔ (1/2 < a.orb ∧ a.orb ≤ 1))
      ∧ (a.importance = [] ↔ 1 < a.orb) := by
  rcases List.mem_flatMap.mp (mem_compute_aspects.mp ha) with ⟨pq, _, hmk⟩
  rcases mem_mkPairAspects hmk with ⟨ni, hni, rfl, horb⟩
  have hopos : (0 : ℚ) < ni.2.orb := aspects_info_orb_pos ni hni
  have habs : (0 : ℚ) ≤ |angular_distance pq.1.2 pq.2.2 - ni.2.angle| := abs_nonneg _
  refine ⟨ni.2, ?_, horb, le_max_left _ _, ?_, ?_, ?_, ?_⟩
  · simpa using hni
  · have : (1 : ℚ) - |angular_distance pq.1.2 pq.2.2 - ni.2.angle| / ni.2.orb ≤ 1 := by
      have := div_nonneg habs hopos.le
      linarith
    exact max_le (by norm_num) this
  · dsimp only
    constructor
    · intro h
      by_contra hc
      rw [if_neg hc] at h
      by_cases hc2 : |angular_distance pq.1.2 pq.2.2 - ni.2.angle| ≤ 1
      · rw [if_pos hc2] at h
        exact absurd h (by decide)
      · rw [if_neg hc2] at h
        exact absurd h (by decide)
    · intro h
      simp only [if_pos h]
  · dsimp only
    constructor
    · intro h
      by_cases hc : |angular_distance pq.1.2 pq.2.2 - ni.2.angle| ≤ 1/2
      · rw [if_pos hc] at h
        exact absurd h (by decide)
      · by_cases hc2 : |angular_distance pq.1.2 pq.2.2 - ni.2.angle| ≤ 1
        · exact ⟨not_le.mp hc, hc2⟩
        · rw [if_neg hc, if_neg hc2] at h
          exact absurd h (by decide)
    · rintro ⟨h1, h2⟩
      rw [if_neg (not_le.mpr h1), if_pos h2]
  · dsimp only
    constructor
    · intro h
      by_cases hc : |angular_distance pq.1.2 pq.2.2 - ni.2.angle| ≤ 1/2
      · rw [if_pos hc] at h
        exact absurd h (by decide)
      · by_cases hc2 : |angular_distance pq.1.2 pq.2.2 - ni.2.angle| ≤ 1
        · rw [if_neg hc, if_pos hc2] at h
          exact absurd h (by decide)
        · exact not_le.mp hc2
    · intro h
      have h1 : ¬ |angular_distance pq.1.2 pq.2.2 - ni.2.angle| ≤ 1/2 := by linarith
      rw [if_neg h1, if_neg (not_le.mpr h)]

/-- Witness for C4 at a concrete chart: Sun at 0 and Moon at 90 produce an
exact Square, and the theorem applies to it. -/
theorem C4_aspect_invariants_witness :
    ({ planet1 := "Sun".data, planet2 := "Moon".data, aspect := "Square".data,
       orb := 0, strength := 1, type := "major".data,
       keywords := "challenge, action".data, importance := "exact".data } : Aspect)
      ∈ compute_aspects [("Sun".data, 0), ("Moon".data, 90)]
    ∧ ∃ info : AspectInfo, ("Square".data, info) ∈ ASPECTS_INFO ∧ (0 : ℚ) ≤ info.orb
      ∧ (0 : ℚ) ≤ 1 ∧ (1 : ℚ) ≤ 1
      ∧ ("exact".data = "exact".data ↔ (0 : ℚ) ≤ 1/2)
      ∧ ("exact".data = "close".data ↔ ((1 : ℚ)/2 < 0 ∧ (0 : ℚ) ≤ 1))
      ∧ ("exact".data = ([] : PyStr) ↔ (1 : ℚ) < 0) := by
  have hmem :
      ({ planet1 := "Sun".data, planet2 := "Moon".data, aspect := "Square".data,
         orb := 0, strength := 1, type := "major".data,
         keywords := "challenge, action".data, importance := "exact".data } : Aspect)
        ∈ compute_aspects [("Sun".data, 0), ("Moon".data, 90)] := by
    with_unfolding_all decide
  refine ⟨hmem, ?_⟩
  simpa using C4_aspect_invariants [("Sun".data, 0), ("Moon".data, 90)] _ hmem

/-! ### Claim C9: the default orb windows are disjoint, so at most one
aspect is emitted per unordered body pair -/

/-- Boolean test: aspect a relates exactly the unordered pair p1, p2. -/
def samePairB (p1 p2 : PyStr) (a : Aspect) : Bool :=
  decide ((a.planet1 = p1 ∧ a.planet2 = p2) ∨ (a.planet1 = p2 ∧ a.planet2 = p1))

theorem aspects_windows_gap :
    ∀ n1 ∈ ASPECTS_INFO, ∀ n2 ∈ ASPECTS_INFO,
      n1.1 = n2.1 ∨ n1.2.orb + n2.2.orb < |n1.2.angle - n2.2.angle| := by
  with_unfolding_all decide

theorem aspects_info_name_pairwise :
    ASPECTS_INFO.Pairwise (fun n1 n2 => n1.1 ≠ n2.1) := by
  with_unfolding_all decide

theorem length_filterMap_le_one {f : α → Option β} {l : List α}
    (h : l.Pairwise (fun a b => f a = none ∨ f b = none)) :
    (l.filterMap f).length ≤ 1 := by
  induction l with
  | nil => simp
  | cons x xs ih =>
    rcases List.pairwise_cons.mp h with ⟨hx, hxs⟩
    cases hfx : f x with
    | none => simpa [List.filterMap_cons, hfx] using ih hxs
    | some b =>
      have hnil : xs.filterMap f = [] := by
        rw [List.filterMap_eq_nil_iff]
        intro a ha
        rcases hx a ha with hcontra | hnone
        · rw [hfx] at hcontra; exact absurd hcontra (by simp)
        · exact hnone
      simp [List.filterMap_cons, hfx, hnil]

theorem mkPairAspects_length_le_one (p1 p2 : PyStr) (lon1 lon2 : ℚ) :
    (mkPairAspects p1 p2 lon1 lon2).length ≤ 1 := by
  unfold mkPairAspects
  apply length_filterMap_le_one
  refine aspects_info_name_pairwise.imp_of_mem ?_
  intro a b ha hb hne
  by_cases hca : |angular_distance lon1 lon2 - a.2.angle| ≤ a.2.orb
  · right
    have hgap := (aspects_windows_gap a ha b hb).resolve_left hne
    by_cases hcb : |angular_distance lon1 lon2 - b.2.angle| ≤ b.2.orb
    · exfalso
      have htri : |a.2.angle - b.2.angle| ≤
          |a.2.angle - angular_distance lon1 lon2| + |angular_distance lon1 lon2 - b.2.angle| :=
        abs_sub_le _ _ _
      rw [abs_sub_comm a.2.angle (angular_distance lon1 lon2)] at htri
      linarith
    · simp only [if_neg hcb]
  · left
    simp only [if_neg hca]

theorem mem_mkPairAspects_names {a : Aspect} {p1 p2 : PyStr} {lon1 lon2 : ℚ}
    (ha : a ∈ mkPairAspects p1 p2 lon1 lon2) :
    a.planet1 = p1 ∧ a.planet2 = p2 := by
  rcases mem_mkPairAspects ha with ⟨ni, _, rfl, _⟩
  exact ⟨rfl, rfl⟩

theorem countP_name_le_one :
    ∀ (xs : List (PyStr × ℚ)), (xs.map Prod.fst).Nodup → ∀ p : PyStr,
      xs.countP (fun y => decide (y.1 = p)) ≤ 1 := by
  intro xs
  induction xs with
  | nil => intro _ p; simp
  | cons y ys ih =>
    intro hnd p
    have hnd' : y.1 ∉ ys.map Prod.fst ∧ (ys.map Prod.fst).Nodup := by
      simpa [List.nodup_cons] using hnd
    rw [List.countP_cons]
    by_cases h : y.1 = p
    · have hzero : ys.countP (fun z => decide (z.1 = p)) = 0 := by
        rw [List.countP_eq_zero]
        intro z hz
        simp only [decide_eq_true_eq]
        intro hzp
        exact hnd'.1 (List.mem_map.mpr ⟨z, hz, by rw [hzp, h]⟩)
      simp [hzero, h]
    · simp [h, ih hnd'.2 p]

theorem inner_count_le (x1 : PyStr) (lon1 : ℚ) (p1 p2 : PyStr) :
    ∀ xs : List (PyStr × ℚ),
      ((xs.flatMap fun y => mkPairAspects x1 y.1 lon1 y.2).countP (samePairB p1 p2))
        ≤ xs.countP (fun y => decide ((x1 = p1 ∧ y.1 = p2) ∨ (x1 = p2 ∧ y.1 = p1))) := by
  intro xs
  induction xs with
  | nil => simp
  | cons y ys ih =>
    rw [List.flatMap_cons, List.countP_append, List.countP_cons]
    by_cases hm : (x1 = p1 ∧ y.1 = p2) ∨ (x1 = p2 ∧ y.1 = p1)
    · have h1 : (mkPairAspects x1 y.1 lon1 y.2).countP (samePairB p1 p2) ≤ 1 :=
        le_trans (List.countP_le_length _) (mkPairAspects_length_le_one _ _ _ _)
      have : (if decide ((x1 = p1 ∧ y.1 = p2) ∨ (x1 = p2 ∧ y.1 = p1)) = true
          then 1 else 0) = 1 := by simp [hm]
      rw [this]
      omega
    · have h0 : (mkPairAspects x1 y.1 lon1 y.2).countP (samePairB p1 p2) = 0 := by
        rw [List.countP_eq_zero]
        intro a ha
        rcases mem_mkPairAspects_names ha with ⟨h1, h2⟩
        simp only [samePairB, decide_eq_true_eq]
        rw [h1, h2]
        exact hm
      simp only [h0, Nat.zero_add]
      have : (if decide ((x1 = p1 ∧ y.1 = p2) ∨ (x1 = p2 ∧ y.1 = p1)) = true
          then 1 else 0) = 0 := by simp [hm]
      rw [this]
      omega

theorem discoveryAspects_cons (x : PyStr × ℚ) (xs : List (PyStr × ℚ)) :
    discoveryAspects (x :: xs) =
      (xs.flatMap fun y => mkPairAspects x.1 y.1 x.2 y.2) ++ discoveryAspects xs := by
  have hp : pairList (x :: xs) = (xs.map fun y => (x, y)) ++ pairList xs := rfl
  unfold discoveryAspects
  rw [hp, List.flatMap_append, List.flatMap_map]

theorem mem_discovery_planets {a : Aspect} :
    ∀ {positions : List (PyStr × ℚ)}, a ∈ discoveryAspects positions →
      a.planet1 ∈ positions.map Prod.fst ∧ a.planet2 ∈ positions.map Prod.fst := by
  intro positions
  induction positions with
  | nil => intro h; simp [discoveryAspects, pairList] at h
  | cons x xs ih =>
    intro h
    rw [discoveryAspects_cons, List.mem_append] at h
    rcases h with h | h
    · rcases List.mem_flatMap.mp h with ⟨y, hy, hmk⟩
      rcases mem_mkPairAspects_names hmk with ⟨h1, h2⟩
      refine ⟨by simp [h1], ?_⟩
      rw [h2]
      exact List.mem_cons.mpr (Or.inr (List.mem_map.mpr ⟨y, hy, rfl⟩))
    · rcases ih h with ⟨h1, h2⟩
      exact ⟨List.mem_cons.mpr (Or.inr h1), List.mem_cons.mpr (Or.inr h2)⟩

theorem countP_discovery_le_one :
    ∀ (positions : List (PyStr × ℚ)), (positions.map Prod.fst).Nodup →
      ∀ p1 p2 : PyStr, (discoveryAspects positions).countP (samePairB p1 p2) ≤ 1 := by
  intro positions
  induction positions with
  | nil => intro _ p1 p2; simp [discoveryAspects, pairList]
  | cons x xs ih =>
    intro hnd p1 p2
    have hnd' : x.1 ∉ xs.map Prod.fst ∧ (xs.map Prod.fst).Nodup := by
      simpa [List.nodup_cons] using hnd
    rw [discoveryAspects_cons, List.countP_append]
    by_cases hx : x.1 = p1 ∨ x.1 = p2
    · have hB : (discoveryAspects xs).countP (samePairB p1 p2) = 0 := by
        rw [List.countP_eq_zero]
        intro a ha
        rcases mem_discovery_planets ha with ⟨h1, h2⟩
        simp only [samePairB, decide_eq_true_eq]
        rintro (⟨e1, e2⟩ | ⟨e1, e2⟩) <;> rcases hx with hx | hx
        · exact hnd'.1 (by rw [← hx] at e1; rw [← e1]; exact h1)
        · exact hnd'.1 (by rw [← hx] at e2; rw [← e2]; exact h2)
        · exact hnd'.1 (by rw [← hx] at e2; rw [← e2]; exact h2)
        · exact hnd'.1 (by rw [← hx] at e1; rw [← e1]; exact h1)
      have hA := inner_count_le x.1 x.2 p1 p2 xs
      have hA1 : xs.countP
          (fun y => decide ((x.1 = p1 ∧ y.1 = p2) ∨ (x.1 = p2 ∧ y.1 = p1))) ≤ 1 := by
        by_cases h12 : x.1 = p1
        · by_cases h21 : x.1 = p2
          · have : xs.countP
                (fun y => decide ((x.1 = p1 ∧ y.1 = p2) ∨ (x.1 = p2 ∧ y.1 = p1))) = 0 := by
              rw [List.countP_eq_zero]
              intro y hy
              simp only [decide_eq_true_eq]
              rintro (⟨_, e⟩ | ⟨_, e⟩) <;>
                exact hnd'.1 (List.mem_map.mpr ⟨y, hy, by rw [e]; first | rw [← h21] | rw [← h12]⟩)
            omega
          · have heq : ∀ y : PyStr × ℚ,
                (decide ((x.1 = p1 ∧ y.1 = p2) ∨ (x.1 = p2 ∧ y.1 = p1)))
                  = decide (y.1 = p2) := by
              intro y
              rw [decide_eq_decide]
              constructor
              · rintro (⟨_, e⟩ | ⟨e, _⟩)
                · exact e
                · exact absurd e h21
              · intro e; exact Or.inl ⟨h12, e⟩
            rw [List.countP_congr (fun y _ => by rw [heq y])]
            exact countP_name_le_one xs hnd'.2 p2
        · rcases hx with hx | hx
          · exact absurd hx h12
          · have heq : ∀ y : PyStr × ℚ,
                (decide ((x.1 = p1 ∧ y.1 = p2) ∨ (x.1 = p2 ∧ y.1 = p1)))
                  = decide (y.1 = p1) := by
              intro y
              rw [decide_eq_decide]
              constructor
              · rintro (⟨e, _⟩ | ⟨_, e⟩)
                · exact absurd e h12
                · exact e
              · intro e; exact Or.inr ⟨hx, e⟩
            rw [List.countP_congr (fun y _ => by rw [heq y])]
            exact countP_name_le_one xs hnd'.2 p1
      omega
    · have hA : ((xs.flatMap fun y => mkPairAspects x.1 y.1 x.2 y.2).countP
          (samePairB p1 p2)) = 0 := by
        have h := inner_count_le x.1 x.2 p1 p2 xs
        have hz : xs.countP
            (fun y => decide ((x.1 = p1 ∧ y.1 = p2) ∨ (x.1 = p2 ∧ y.1 = p1))) = 0 := by
          rw [List.countP_eq_zero]
          intro y _
          simp only [decide_eq_true_eq]
          rintro (⟨e, _⟩ | ⟨e, _⟩) <;> exact hx (by first | exact Or.inl e | exact Or.inr e)
        omega
      rw [hA, Nat.zero_add]
      exact ih hnd'.2 p1 p2

/-- C9: with the default nine-entry aspect table the orb windows of
distinct aspect definitions are pairwise disjoint over the angular-distance
range from 0 to 180, and consequently compute_aspects emits at most one
aspect per unordered body pair. -/
theorem C9_disjoint_windows_at_most_one_aspect :
    (∀ n1 ∈ ASPECTS_INFO, ∀ n2 ∈ ASPECTS_INFO, n1.1 ≠ n2.1 →
      ∀ x : ℚ, 0 ≤ x → x ≤ 180 →
        ¬(|x - n1.2.angle| ≤ n1.2.orb ∧ |x - n2.2.angle| ≤ n2.2.orb))
    ∧ (∀ positions : List (PyStr × ℚ), (positions.map Prod.fst).Nodup →
        ∀ p1 p2 : PyStr, (compute_aspects positions).countP (samePairB p1 p2) ≤ 1) := by
  constructor
  · intro n1 h1 n2 h2 hne x _ _ ⟨hc1, hc2⟩
    have hgap := (aspects_windows_gap n1 h1 n2 h2).resolve_left hne
    have htri : |n1.2.angle - n2.2.angle| ≤ |n1.2.angle - x| + |x - n2.2.angle| :=
      abs_sub_le _ _ _
    rw [abs_sub_comm n1.2.angle x] at htri
    linarith
  · intro positions hnd p1 p2
    have hperm := sortS_perm aspBefore (discoveryAspects positions)
    calc (compute_aspects positions).countP (samePairB p1 p2)
        = (discoveryAspects positions).countP (samePairB p1 p2) :=
          hperm.countP_eq (samePairB p1 p2)
      _ ≤ 1 := countP_discovery_le_one positions hnd p1 p2

/-- Witness for C9: the Conjunction and Opposition windows exclude the
concrete distance 90, and the chart with Sun at 0 and Moon at 90 (distinct
keys) yields at most one Sun-Moon aspect. -/
theorem C9_disjoint_windows_at_most_one_aspect_witness :
    (("Conjunction".data, (⟨0, 8, "major".data, "blending, emphasis".data⟩ : AspectInfo))
        ∈ ASPECTS_INFO
    ∧ ("Opposition".data, (⟨180, 8, "major".data, "tension, awareness".data⟩ : AspectInfo))
        ∈ ASPECTS_INFO
    ∧ "Conjunction".data ≠ "Opposition".data ∧ (0 : ℚ) ≤ 90 ∧ (90 : ℚ) ≤ 180
    ∧ ([("Sun".data, (0 : ℚ)), ("Moon".data, 90)].map Prod.fst).Nodup)
    ∧ ¬(|(90 : ℚ) - 0| ≤ 8 ∧ |(90 : ℚ) - 180| ≤ 8)
    ∧ (compute_aspects [("Sun".data, 0), ("Moon".data, 90)]).countP
        (samePairB "Sun".data "Moon".data) ≤ 1 := by
  have h1 : ("Conjunction".data,
      (⟨0, 8, "major".data, "blending, emphasis".data⟩ : AspectInfo)) ∈ ASPECTS_INFO := by
    with_unfolding_all decide
  have h2 : ("Opposition".data,
      (⟨180, 8, "major".data, "tension, awareness".data⟩ : AspectInfo)) ∈ ASPECTS_INFO := by
    with_unfolding_all decide
  have hne : "Conjunction".data ≠ "Opposition".data := by decide
  have hnd : ([("Sun".data, (0 : ℚ)), ("Moon".data, 90)].map Prod.fst).Nodup := by
    decide
  refine ⟨⟨h1, h2, hne, by norm_num, by norm_num, hnd⟩, ?_, ?_⟩
  · exact C9_disjoint_windows_at_most_one_aspect.1 _ h1 _ h2 hne 90 (by norm_num) (by norm_num)
  · exact C9_disjoint_windows_at_most_one_aspect.2 _ hnd _ _

/-! ### Claim C8: the shortest-arc midpoint -/

/-- midpoint_angle, the helper nested inside compute_synastry_aspects. -/
def midpoint_angle (lon1 lon2 : ℚ) : ℚ :=
  let diff := |lon1 - lon2|
  if diff ≤ 180 then pyMod ((lon1 + lon2) / 2) 360
  else pyMod ((lon1 + lon2 + 360) / 2) 360

/-- Modelled from the spec, section 4.1: shortArcMidpoint with the branch
on whether the plain distance is at most 180. -/
def shortArcMidpoint (a b : ℚ) : ℚ :=
  if |a - b| ≤ 180 then pyMod ((a + b) / 2) 360
  else pyMod ((a + b + 360) / 2) 360

/-- C8: midpoint_angle agrees everywhere with the shortest-arc midpoint
formula of the spec, with the value (a+b)/2 mod 360 when the distance of a
and b is at most 180 and (a+b+360)/2 mod 360 otherwise; in particular the
midpoint of 10 and 350 is 0 and the midpoint of 0 and 180 is 90 (the branch
with the non-strict comparison decides the 180 degree tie). -/
theorem C8_midpoint_angle_spec :
    (∀ a b : ℚ, midpoint_angle a b = shortArcMidpoint a b)
    ∧ midpoint_angle 10 350 = 0 ∧ midpoint_angle 0 180 = 90 := by
  refine ⟨fun a b => rfl, ?_, ?_⟩ <;> with_unfolding_all decide

/-! ### Claim C6: synastry cross aspects and composite positions -/

structure SynastryResult where
  cross_aspects : List Aspect
  composite_positions : List (PyStr × ℚ)
  composite_aspects : List Aspect
  davison_positions : List (PyStr × ℚ)
  davison_aspects : List Aspect
deriving Repr

/-- Python dict lookup on the association-list model (first hit). -/
def lookupPos (b : PyStr) : List (PyStr × ℚ) → Option ℚ
  | [] => none
  | kv :: rest => if kv.1 = b then some kv.2 else lookupPos b rest

/-- The dict comprehension tagging every key of a chart with an origin
marker. -/
def tagWith (m : PyStr) (c : List (PyStr × ℚ)) : List (PyStr × ℚ) :=
  c.map fun kv => (m ++ kv.1, kv.2)

/-- Removing the two-character origin marker, planet[2:] in the source. -/
def stripTag (a : Aspect) : Aspect :=
  { a with planet1 := a.planet1.drop 2, planet2 := a.planet2.drop 2 }

/-- The entry a body of chart 1 contributes to the composite chart: the
body paired with the shortest-arc midpoint when chart 2 also has the body,
nothing otherwise (the body set of the composite is the key intersection
of the two charts). -/
def compositeOf (c2 : List (PyStr × ℚ)) (kv : PyStr × ℚ) : Option (PyStr × ℚ) :=
  match lookupPos kv.1 c2 with
  | some v2 => some (kv.1, midpoint_angle kv.2 v2)
  | none => none

/-- compute_synastry_aspects from src/app.py.  The dict union of the two
disjointly-keyed prefixed charts is the append of the association lists.
The Python set intersection of the two key views is iterated here in
first-chart order; no returned value depends on that order, because the
composite positions are only ever read as a mapping. -/
def compute_synastry_aspects (c1 c2 : List (PyStr × ℚ)) : SynastryResult :=
  let pref1 := tagWith "1_".data c1
  let pref2 := tagWith "2_".data c2
  let combined := pref1 ++ pref2
  let aspects := compute_aspects combined
  let cross := (aspects.filter fun a =>
      ("1_".data.isPrefixOf a.planet1 && "2_".data.isPrefixOf a.planet2)
      || ("2_".data.isPrefixOf a.planet1 && "1_".data.isPrefixOf a.planet2)).map stripTag
  let composite := c1.filterMap (compositeOf c2)
  let davison := composite
  { cross_aspects := cross
    composite_positions := composite
    composite_aspects := if 1 < composite.length then compute_aspects composite else []
    davison_positions := davison
    davison_aspects := if 1 < davison.length then compute_aspects davison else [] }

theorem one_prefix_tag (k : PyStr) : "1_".data.isPrefixOf ("1_".data ++ k) = true := by
  rw [List.isPrefixOf_iff_prefix]
  exact List.prefix_append _ _

theorem two_prefix_tag (k : PyStr) : "2_".data.isPrefixOf ("2_".data ++ k) = true := by
  rw [List.isPrefixOf_iff_prefix]
  exact List.prefix_append _ _

theorem one_prefix_two (k : PyStr) : "1_".data.isPrefixOf ("2_".data ++ k) = false := by
  rw [Bool.eq_false_iff]
  intro h
  rw [List.isPrefixOf_iff_prefix] at h
  rcases List.cons_prefix_cons.mp h with ⟨h1, _⟩
  exact absurd h1 (by decide)

theorem two_prefix_one (k : PyStr) : "2_".data.isPrefixOf ("1_".data ++ k) = false := by
  rw [Bool.eq_false_iff]
  intro h
  rw [List.isPrefixOf_iff_prefix] at h
  rcases List.cons_prefix_cons.mp h with ⟨h1, _⟩
  exact absurd h1 (by decide)

theorem drop_two_tag (m k : PyStr) (hm : m.length = 2) : (m ++ k).drop 2 = k := by
  rw [← hm]
  exact List.drop_left m k

theorem mem_tag_keys {m : PyStr} {c : List (PyStr × ℚ)} {k : PyStr} :
    k ∈ (tagWith m c).map Prod.fst ↔ ∃ k0 ∈ c.map Prod.fst, k = m ++ k0 := by
  unfold tagWith
  rw [List.map_map]
  constructor
  · intro h
    rcases List.mem_map.mp h with ⟨kv, hkv, hk⟩
    exact ⟨kv.1, List.mem_map.mpr ⟨kv, hkv, rfl⟩, hk.symm⟩
  · rintro ⟨k0, hk0, rfl⟩
    rcases List.mem_map.mp hk0 with ⟨kv, hkv, hk⟩
    exact List.mem_map.mpr ⟨kv, hkv, by show m ++ kv.1 = m ++ k0; rw [hk]⟩

theorem cross_aspects_def (c1 c2 : List (PyStr × ℚ)) :
    (compute_synastry_aspects c1 c2).cross_aspects =
      ((compute_aspects (tagWith "1_".data c1 ++ tagWith "2_".data c2)).filter fun a =>
        ("1_".data.isPrefixOf a.planet1 && "2_".data.isPrefixOf a.planet2)
        || ("2_".data.isPrefixOf a.planet1 && "1_".data.isPrefixOf a.planet2)).map stripTag :=
  rfl

theorem composite_positions_def (c1 c2 : List (PyStr × ℚ)) :
    (compute_synastry_aspects c1 c2).composite_positions =
      c1.filterMap (compositeOf c2) :=
  rfl

theorem lookupPos_eq_some_mem {b : PyStr} {v : ℚ} :
    ∀ {l : List (PyStr × ℚ)}, lookupPos b l = some v → b ∈ l.map Prod.fst := by
  intro l
  induction l with
  | nil => intro h; exact absurd h (by simp [lookupPos])
  | cons kv rest ih =>
    intro h
    rw [lookupPos] at h
    by_cases hb : kv.1 = b
    · exact List.mem_cons.mpr (Or.inl hb.symm)
    · rw [if_neg hb] at h
      exact List.mem_cons.mpr (Or.inr (ih h))

theorem composite_entry_keys {c2 : List (PyStr × ℚ)} :
    ∀ {c1 : List (PyStr × ℚ)} {kv : PyStr × ℚ},
      kv ∈ c1.filterMap (compositeOf c2) → kv.1 ∈ c1.map Prod.fst := by
  intro c1 kv h
  rcases List.mem_filterMap.mp h with ⟨kv0, hkv0, heq⟩
  unfold compositeOf at heq
  cases h2 : lookupPos kv0.1 c2 with
  | none => rw [h2] at heq; exact absurd heq (by simp)
  | some v2 =>
    rw [h2] at heq
    have : kv = (kv0.1, midpoint_angle kv0.2 v2) := (Option.some.inj heq).symm
    rw [this]
    exact List.mem_map.mpr ⟨kv0, hkv0, rfl⟩

theorem lookupPos_cons (b : PyStr) (kv : PyStr × ℚ) (l : List (PyStr × ℚ)) :
    lookupPos b (kv :: l) = if kv.1 = b then some kv.2 else lookupPos b l :=
  rfl

theorem lookup_composite (c2 : List (PyStr × ℚ)) :
    ∀ (c1 : List (PyStr × ℚ)), (c1.map Prod.fst).Nodup → ∀ b : PyStr,
      lookupPos b (c1.filterMap (compositeOf c2)) =
      (match lookupPos b c1, lookupPos b c2 with
       | some v1, some v2 => some (midpoint_angle v1 v2)
       | _, _ => none) := by
  intro c1
  induction c1 with
  | nil =>
    intro _ b
    simp [lookupPos]
  | cons kv rest ih =>
    intro hnd b
    have hnd' : kv.1 ∉ rest.map Prod.fst ∧ (rest.map Prod.fst).Nodup := by
      simpa [List.nodup_cons] using hnd
    by_cases hb : kv.1 = b
    · subst hb
      cases h2 : lookupPos kv.1 c2 with
      | some v2 =>
        have hco : compositeOf c2 kv = some (kv.1, midpoint_angle kv.2 v2) := by
          unfold compositeOf
          rw [h2]
        rw [List.filterMap_cons_some hco]
        simp [lookupPos_cons, h2]
      | none =>
        have hco : compositeOf c2 kv = none := by
          unfold compositeOf
          rw [h2]
        rw [List.filterMap_cons_none hco]
        have hnone : lookupPos kv.1 (rest.filterMap (compositeOf c2)) = none := by
          cases hrest : lookupPos kv.1 (rest.filterMap (compositeOf c2)) with
          | none => rfl
          | some v =>
            exfalso
            have hm := lookupPos_eq_some_mem hrest
            rcases List.mem_map.mp hm with ⟨kv2, hkv2, hk⟩
            have hmem := composite_entry_keys hkv2
            rw [hk] at hmem
            exact hnd'.1 hmem
        rw [hnone]
        simp [lookupPos_cons, h2]
    · cases h2 : lookupPos kv.1 c2 with
      | some v2 =>
        have hco : compositeOf c2 kv = some (kv.1, midpoint_angle kv.2 v2) := by
          unfold compositeOf
          rw [h2]
        rw [List.filterMap_cons_some hco]
        rw [lookupPos_cons, lookupPos_cons]
        simp only [hb, if_neg]
        · exact ih hnd'.2 b
      | none =>
        have hco : compositeOf c2 kv = none := by
          unfold compositeOf
          rw [h2]
        rw [List.filterMap_cons_none hco]
        rw [lookupPos_cons]
        simp only [hb, if_neg]
        · exact ih hnd'.2 b

theorem tag_one_length : ("1_".data : PyStr).length = 2 := rfl

theorem tag_two_length : ("2_".data : PyStr).length = 2 := rfl

/-- C6: the synastry cross aspects are exactly the aspects of the merged
tagged chart whose two participants carry different origin markers, with
the markers stripped before returning; the composite positions map assigns
to exactly the bodies present in both charts the shortest-arc midpoint of
the two longitudes; and in the concrete scenario with chart 1 Sun 0, Moon
90 and chart 2 Sun 180, Moon 0 a Sun-Sun Opposition is among the cross
aspects and the composite Sun longitude is 90. -/
theorem C6_synastry_cross_and_composite :
    (∀ c1 c2 : List (PyStr × ℚ),
      (c1.map Prod.fst).Nodup → (c2.map Prod.fst).Nodup →
      (∀ a ∈ (compute_synastry_aspects c1 c2).cross_aspects,
        (a.planet1 ∈ c1.map Prod.fst ∧ a.planet2 ∈ c2.map Prod.fst)
        ∨ (a.planet1 ∈ c2.map Prod.fst ∧ a.planet2 ∈ c1.map Prod.fst))
      ∧ (∀ a ∈ compute_aspects (tagWith "1_".data c1 ++ tagWith "2_".data c2),
          ((∃ k ∈ c1.map Prod.fst, a.planet1 = "1_".data ++ k)
              ∧ (∃ k ∈ c2.map Prod.fst, a.planet2 = "2_".data ++ k))
          ∨ ((∃ k ∈ c2.map Prod.fst, a.planet1 = "2_".data ++ k)
              ∧ (∃ k ∈ c1.map Prod.fst, a.planet2 = "1_".data ++ k)) →
          stripTag a ∈ (compute_synastry_aspects c1 c2).cross_aspects)
      ∧ (∀ b : PyStr, lookupPos b (compute_synastry_aspects c1 c2).composite_positions
          = match lookupPos b c1, lookupPos b c2 with
            | some v1, some v2 => some (midpoint_angle v1 v2)
            | _, _ => none))
    ∧ (∃ a ∈ (compute_synastry_aspects [("Sun".data, 0), ("Moon".data, 90)]
          [("Sun".data, 180), ("Moon".data, 0)]).cross_aspects,
        a.planet1 = "Sun".data ∧ a.planet2 = "Sun".data ∧ a.aspect = "Opposition".data)
    ∧ lookupPos "Sun".data (compute_synastry_aspects [("Sun".data, 0), ("Moon".data, 90)]
        [("Sun".data, 180), ("Moon".data, 0)]).composite_positions = some 90 := by
  refine ⟨?_, ?_, ?_⟩
  · intro c1 c2 hnd1 _hnd2
    refine ⟨?_, ?_, ?_⟩
    · intro a ha
      rw [cross_aspects_def] at ha
      rcases List.mem_map.mp ha with ⟨a0, ha0, rfl⟩
      rcases List.mem_filter.mp ha0 with ⟨hmem, hcond⟩
      have hp := mem_discovery_planets (mem_compute_aspects.mp hmem)
      have hk1 : a0.planet1 ∈ (tagWith "1_".data c1).map Prod.fst
          ∨ a0.planet1 ∈ (tagWith "2_".data c2).map Prod.fst := by
        have := hp.1
        rw [List.map_append, List.mem_append] at this
        exact this
      have hk2 : a0.planet2 ∈ (tagWith "1_".data c1).map Prod.fst
          ∨ a0.planet2 ∈ (tagWith "2_".data c2).map Prod.fst := by
        have := hp.2
        rw [List.map_append, List.mem_append] at this
        exact this
      rcases Bool.or_eq_true _ _ |>.mp hcond with h | h
      · rcases Bool.and_eq_true _ _ |>.mp h with ⟨hA1, hA2⟩
        left
        constructor
        · rcases hk1 with hk | hk
          · rcases mem_tag_keys.mp hk with ⟨k0, hk0, e⟩
            have : (stripTag a0).planet1 = k0 := by
              unfold stripTag
              dsimp only
              rw [e, drop_two_tag _ _ tag_one_length]
            rw [this]
            exact hk0
          · rcases mem_tag_keys.mp hk with ⟨k0, _, e⟩
            rw [e, one_prefix_two k0] at hA1
            exact absurd hA1 (by decide)
        · rcases hk2 with hk | hk
          · rcases mem_tag_keys.mp hk with ⟨k0, _, e⟩
            rw [e, two_prefix_one k0] at hA2
            exact absurd hA2 (by decide)
          · rcases mem_tag_keys.mp hk with ⟨k0, hk0, e⟩
            have : (stripTag a0).planet2 = k0 := by
              unfold stripTag
              dsimp only
              rw [e, drop_two_tag _ _ tag_two_length]
            rw [this]
            exact hk0
      · rcases Bool.and_eq_true _ _ |>.mp h with ⟨hA1, hA2⟩
        right
        constructor
        · rcases hk1 with hk | hk
          · rcases mem_tag_keys.mp hk with ⟨k0, _, e⟩
            rw [e, two_prefix_one k0] at hA1
            exact absurd hA1 (by decide)
          · rcases mem_tag_keys.mp hk with ⟨k0, hk0, e⟩
            have : (stripTag a0).planet1 = k0 := by
              unfold stripTag
              dsimp only
              rw [e, drop_two_tag _ _ tag_two_length]
            rw [this]
            exact hk0
        · rcases hk2 with hk | hk
          · rcases mem_tag_keys.mp hk with ⟨k0, hk0, e⟩
            have : (stripTag a0).planet2 = k0 := by
              unfold stripTag
              dsimp only
              rw [e, drop_two_tag _ _ tag_one_length]
            rw [this]
            exact hk0
          · rcases mem_tag_keys.mp hk with ⟨k0, _, e⟩
            rw [e, one_prefix_two k0] at hA2
            exact absurd hA2 (by decide)
    · intro a ha hshape
      rw [cross_aspects_def]
      apply List.mem_map.mpr
      refine ⟨a, List.mem_filter.mpr ⟨ha, ?_⟩, rfl⟩
      rcases hshape with ⟨⟨k1, _, e1⟩, ⟨k2, _, e2⟩⟩ | ⟨⟨k1, _, e1⟩, ⟨k2, _, e2⟩⟩
      · rw [e1, e2, one_prefix_tag, two_prefix_tag]
        rfl
      · rw [e1, e2, two_prefix_tag, one_prefix_tag]
        rfl
    · intro b
      rw [composite_positions_def]
      exact lookup_composite c2 c1 hnd1 b
  · with_unfolding_all decide
  · with_unfolding_all decide

/-- Witness for C6: the two concrete charts of the scenario have distinct
keys and the composite characterization holds for them. -/
theorem C6_synastry_cross_and_composite_witness :
    (([("Sun".data, (0 : ℚ)), ("Moon".data, 90)].map Prod.fst).Nodup)
    ∧ (([("Sun".data, (180 : ℚ)), ("Moon".data, 0)].map Prod.fst).Nodup)
    ∧ (∀ b : PyStr, lookupPos b
        (compute_synastry_aspects [("Sun".data, 0), ("Moon".data, 90)]
          [("Sun".data, 180), ("Moon".data, 0)]).composite_positions
        = match lookupPos b [("Sun".data, (0 : ℚ)), ("Moon".data, 90)],
            lookupPos b [("Sun".data, (180 : ℚ)), ("Moon".data, 0)] with
          | some v1, some v2 => some (midpoint_angle v1 v2)
          | _, _ => none) :=
  ⟨by decide, by decide,
    (C6_synastry_cross_and_composite.1 _ _ (by decide) (by decide)).2.2⟩

/-! ### Claim C7: house_for -/

/-- The interval test of one loop iteration of house_for: the end cusp and
the longitude are shifted by 360 exactly as the source mutates them before
the comparison start less-equal lon less than end. -/
def intervalTest (longitude : ℚ) (cusps : Fin 12 → ℚ) (i : Fin 12) : Bool :=
  decide (cusps i ≤ (if longitude < cusps i then longitude + 360 else longitude)
    ∧ (if longitude < cusps i then longitude + 360 else longitude)
      < (if cusps (i + 1) < cusps i then cusps (i + 1) + 360 else cusps (i + 1)))

/-- house_for from src/app.py: the first index in 0..11 whose interval
contains the longitude, defaulting to house 12. -/
def house_for (longitude : ℚ) (cusps : Fin 12 → ℚ) : ℕ :=
  match (List.finRange 12).find? (intervalTest longitude cusps) with
  | some i => i.val + 1
  | none => 12

/-- Well-formed cusps in the sense of the spec: twelve longitudes in the
normalized range, circularly strictly increasing (every cyclic step
increases except the single wrap step after index w); distinctness is a
consequence. -/
def WellFormedCusps (c : Fin 12 → ℚ) : Prop :=
  (∀ i : Fin 12, 0 ≤ c i ∧ c i < 360)
  ∧ ∃ w : Fin 12, ∀ j : Fin 12, j ≠ w → c j < c (j + 1)

/-- Index into Fin 12 by a natural number. -/
def cuspIdx (k : ℕ) : Fin 12 := ⟨k % 12, Nat.mod_lt k (by norm_num)⟩

/-- The cusps read in strictly increasing order, starting just after the
wrap index w. -/
def chainAt (c : Fin 12 → ℚ) (w : Fin 12) (k : ℕ) : ℚ := c (w + 1 + cuspIdx k)

/-- The position of index i in the increasing chain that starts at w + 1. -/
def posAt (w i : Fin 12) : ℕ := (i.val + 12 - (w.val + 1)) % 12

theorem posAt_le (w i : Fin 12) : posAt w i ≤ 11 := by
  unfold posAt
  omega

theorem val_add_one (j : Fin 12) : (j + 1).val = (j.val + 1) % 12 := by
  rw [Fin.val_add]
  norm_num

theorem chainAt_posAt (c : Fin 12 → ℚ) (w i : Fin 12) :
    chainAt c w (posAt w i) = c i := by
  unfold chainAt cuspIdx posAt
  congr 1
  apply Fin.ext
  simp only [Fin.val_add]
  have h1 : (1 : Fin 12).val = 1 := rfl
  rw [h1]
  have hw := w.isLt
  have hi := i.isLt
  omega

theorem posAt_w (w : Fin 12) : posAt w w = 11 := by
  unfold posAt
  have hw := w.isLt
  omega

theorem posAt_wsucc (w : Fin 12) : posAt w (w + 1) = 0 := by
  unfold posAt
  rw [val_add_one]
  have hw := w.isLt
  omega

theorem posAt_inj {w i j : Fin 12} (h : posAt w i = posAt w j) : i = j := by
  unfold posAt at h
  apply Fin.ext
  have hw := w.isLt
  have hi := i.isLt
  have hj := j.isLt
  omega

theorem posAt_succ {w j : Fin 12} (hj : j ≠ w) :
    posAt w (j + 1) = posAt w j + 1 ∧ posAt w j ≤ 10 := by
  have hne : j.val ≠ w.val := fun h => hj (Fin.ext h)
  unfold posAt
  rw [val_add_one]
  have hw := w.isLt
  have hjv := j.isLt
  omega

theorem chain_step {c : Fin 12 → ℚ} {w : Fin 12}
    (hw : ∀ j : Fin 12, j ≠ w → c j < c (j + 1)) :
    ∀ k, k < 11 → chainAt c w k < chainAt c w (k + 1) := by
  intro k hk
  have hjw : w + 1 + cuspIdx k ≠ w := by
    intro h
    have hv := congrArg Fin.val h
    rw [Fin.val_add, Fin.val_add] at hv
    have h1 : (1 : Fin 12).val = 1 := rfl
    rw [h1] at hv
    unfold cuspIdx at hv
    have hwv := w.isLt
    simp only at hv
    omega
  have hstep := hw _ hjw
  have heq : w + 1 + cuspIdx (k + 1) = (w + 1 + cuspIdx k) + 1 := by
    apply Fin.ext
    unfold cuspIdx
    simp only [Fin.val_add]
    have h1 : (1 : Fin 12).val = 1 := rfl
    rw [h1]
    have hwv := w.isLt
    omega
  unfold chainAt
  rw [heq]
  exact hstep

theorem chain_mono {c : Fin 12 → ℚ} {w : Fin 12}
    (hw : ∀ j : Fin 12, j ≠ w → c j < c (j + 1)) :
    ∀ l k, k < l → l ≤ 11 → chainAt c w k < chainAt c w l := by
  intro l
  induction l with
  | zero => intro k hk _; omega
  | succ m ih =>
    intro k hk hl
    by_cases hkm : k = m
    · subst hkm
      exact chain_step hw k (by omega)
    · exact lt_trans (ih k (by omega) (by omega)) (chain_step hw m (by omega))

theorem chain_mono_le {c : Fin 12 → ℚ} {w : Fin 12}
    (hw : ∀ j : Fin 12, j ≠ w → c j < c (j + 1)) :
    ∀ l k, k ≤ l → l ≤ 11 → chainAt c w k ≤ chainAt c w l := by
  intro l k hk hl
  rcases Nat.lt_or_ge k l with h | h
  · exact (chain_mono hw l k h hl).le
  · have : k = l := by omega
    rw [this]

theorem chain_lt_pos {c : Fin 12 → ℚ} {w : Fin 12}
    (hw : ∀ j : Fin 12, j ≠ w → c j < c (j + 1))
    {k l : ℕ} (hk : k ≤ 11) (h : chainAt c w k < chainAt c w l) : k < l := by
  by_contra hc
  have := chain_mono_le hw k l (by omega) hk
  linarith

theorem test_nowrap {c : Fin 12 → ℚ} {w : Fin 12}
    (hrange : ∀ x : Fin 12, 0 ≤ c x ∧ c x < 360)
    (hw : ∀ j : Fin 12, j ≠ w → c j < c (j + 1))
    {j : Fin 12} (hj : j ≠ w) (i : Fin 12) :
    intervalTest (c i) c j = true ↔ i = j := by
  have hcj : c j < c (j + 1) := hw j hj
  have hq := posAt_succ (w := w) hj
  unfold intervalTest
  rw [decide_eq_true_eq]
  rw [if_neg (not_lt.mpr hcj.le)]
  by_cases hlt : c i < c j
  · rw [if_pos hlt]
    constructor
    · rintro ⟨h1, h2⟩
      exfalso
      have h3 := (hrange (j + 1)).2
      have h4 := (hrange i).1
      linarith
    · rintro rfl
      exact absurd hlt (lt_irrefl _)
  · rw [if_neg hlt]
    constructor
    · rintro ⟨h1, h2⟩
      have e1 : chainAt c w (posAt w j) = c j := chainAt_posAt c w j
      have e2 : chainAt c w (posAt w i) = c i := chainAt_posAt c w i
      have e3 : chainAt c w (posAt w j + 1) = c (j + 1) := by
        rw [← hq.1]
        exact chainAt_posAt c w (j + 1)
      have hpj : posAt w i ≤ posAt w j := by
        by_contra hcon
        have hle : posAt w j + 1 ≤ posAt w i := by omega
        have hmono := chain_mono_le hw (posAt w i) (posAt w j + 1) hle (posAt_le w i)
        rw [e2, e3] at hmono
        linarith
      have hpj2 : posAt w j ≤ posAt w i := by
        by_contra hcon
        have hmono := chain_mono hw (posAt w j) (posAt w i) (by omega) (posAt_le w j)
        rw [e2, e1] at hmono
        linarith
      exact posAt_inj (by omega : posAt w i = posAt w j)
    · rintro rfl
      exact ⟨le_refl _, hcj⟩

theorem test_wrap {c : Fin 12 → ℚ} {w : Fin 12}
    (hrange : ∀ x : Fin 12, 0 ≤ c x ∧ c x < 360)
    (hw : ∀ j : Fin 12, j ≠ w → c j < c (j + 1)) (i : Fin 12) :
    intervalTest (c i) c w = true ↔ i = w := by
  have e0 : chainAt c w 0 = c (w + 1) := by
    rw [← posAt_wsucc w]
    exact chainAt_posAt c w (w + 1)
  have e11 : chainAt c w 11 = c w := by
    rw [← posAt_w w]
    exact chainAt_posAt c w w
  have hwrap : c (w + 1) < c w := by
    have h := chain_mono hw 11 0 (by omega) (by omega)
    rw [e0, e11] at h
    exact h
  unfold intervalTest
  rw [decide_eq_true_eq]
  rw [if_pos hwrap]
  by_cases hlt : c i < c w
  · rw [if_pos hlt]
    constructor
    · rintro ⟨h1, h2⟩
      exfalso
      have e2 : chainAt c w (posAt w i) = c i := chainAt_posAt c w i
      have hle := chain_mono_le hw (posAt w i) 0 (by omega) (posAt_le w i)
      rw [e0, e2] at hle
      linarith
    · rintro rfl
      exact absurd hlt (lt_irrefl _)
  · rw [if_neg hlt]
    constructor
    · rintro ⟨h1, h2⟩
      have e2 : chainAt c w (posAt w i) = c i := chainAt_posAt c w i
      have hge : posAt w i = 11 := by
        by_contra hcon
        have hlt11 : posAt w i < 11 := by
          have := posAt_le w i
          omega
        have hmono := chain_mono hw 11 (posAt w i) hlt11 (by omega)
        rw [e11, e2] at hmono
        have := not_lt.mp hlt
        linarith
      apply posAt_inj (w := w)
      rw [hge, posAt_w]
    · rintro rfl
      refine ⟨le_refl _, ?_⟩
      have h1 := (hrange i).2
      have h2 := (hrange (i + 1)).1
      linarith

/-- C7: for well-formed cusps (twelve normalized longitudes, circularly
strictly increasing), house_for maps any longitude to an integer between 1
and 12, and a longitude exactly equal to cusp i is assigned house i + 1,
the house that cusp starts. -/
theorem C7_house_for_range_and_boundary :
    ∀ cusps : Fin 12 → ℚ, WellFormedCusps cusps →
      (∀ lon : ℚ, 1 ≤ house_for lon cusps ∧ house_for lon cusps ≤ 12)
      ∧ ∀ i : Fin 12, house_for (cusps i) cusps = i.val + 1 := by
  intro c hWF
  constructor
  · intro lon
    unfold house_for
    cases hf : (List.finRange 12).find? (intervalTest lon c) with
    | none =>
      dsimp only
      omega
    | some j =>
      dsimp only
      have := j.isLt
      omega
  · intro i
    obtain ⟨hrange, w, hw⟩ := hWF
    have key : ∀ j : Fin 12, intervalTest (c i) c j = true ↔ j = i := by
      intro j
      by_cases hj : j = w
      · subst hj
        rw [test_wrap hrange hw i]
        exact eq_comm
      · rw [test_nowrap hrange hw hj i]
        exact eq_comm
    unfold house_for
    cases hf : (List.finRange 12).find? (intervalTest (c i) c) with
    | none =>
      exfalso
      have hnone := List.find?_eq_none.mp hf i (List.mem_finRange i)
      exact hnone ((key i).mpr rfl)
    | some j =>
      have hj := List.find?_some hf
      dsimp only
      rw [(key j).mp hj]

/-- Witness for C7 at the equal-house cusps 0, 30, ..., 330: any longitude
gets a house in 1..12 and the longitude of cusp 1 (30 degrees) falls in
house 2. -/
theorem C7_house_for_range_and_boundary_witness :
    WellFormedCusps (fun i : Fin 12 => (30 : ℚ) * i.val)
    ∧ (1 ≤ house_for 45 (fun i : Fin 12 => (30 : ℚ) * i.val)
        ∧ house_for 45 (fun i : Fin 12 => (30 : ℚ) * i.val) ≤ 12)
    ∧ house_for ((fun i : Fin 12 => (30 : ℚ) * i.val) 1)
        (fun i : Fin 12 => (30 : ℚ) * i.val) = (1 : Fin 12).val + 1 := by
  have hWF : WellFormedCusps (fun i : Fin 12 => (30 : ℚ) * i.val) := by
    unfold WellFormedCusps
    with_unfolding_all decide
  exact ⟨hWF, (C7_house_for_range_and_boundary _ hWF).1 45,
    (C7_house_for_range_and_boundary _ hWF).2 1⟩

/-! ### Claim C10: format_longitude -/

def ZODIAC_SIGNS : List PyStr :=
  [ "Aries".data, "Taurus".data, "Gemini".data, "Cancer".data, "Leo".data,
    "Virgo".data, "Libra".data, "Scorpio".data, "Sagittarius".data,
    "Capricorn".data, "Aquarius".data, "Pisces".data ]

def MODALITY_SIGNS : List (PyStr × List PyStr) :=
  [ ("Cardinal".data, ["Aries".data, "Cancer".data, "Libra".data, "Capricorn".data]),
    ("Fixed".data, ["Taurus".data, "Leo".data, "Scorpio".data, "Aquarius".data]),
    ("Mutable".data, ["Gemini".data, "Virgo".data, "Sagittarius".data, "Pisces".data]) ]

/-- degree_in_sign of format_longitude: deg % 30 with the Python float
modulo. -/
def degreeInSign (deg : ℚ) : ℚ := pyMod deg 30

/-- minutes before the carry: int(round((degree_in_sign - whole_deg) * 60)).
Since degree_in_sign is nonnegative, int() truncation equals the floor. -/
def rawMinutes (deg : ℚ) : ℤ :=
  pyRound ((degreeInSign deg - (⌊degreeInSign deg⌋ : ℚ)) * 60)

structure FLParts where
  wholeDeg : ℤ
  minutes : ℤ
  signIdx : ℤ
deriving DecidableEq, Repr

/-- The three components of format_longitude after the carry handling of
src/app.py lines 233-247; sign_index = int(deg // 30) % 12 with the Python
integer modulo, which is the euclidean one used by Lean Int for a positive
modulus. -/
def format_longitude_parts (deg : ℚ) : FLParts :=
  if rawMinutes deg = 60 then
    if ⌊degreeInSign deg⌋ + 1 = 30 then ⟨0, 0, (⌊deg / 30⌋ % 12 + 1) % 12⟩
    else ⟨⌊degreeInSign deg⌋ + 1, 0, ⌊deg / 30⌋ % 12⟩
  else ⟨⌊degreeInSign deg⌋, rawMinutes deg, ⌊deg / 30⌋ % 12⟩

/-- Zero padding of the minute field, {minutes:02d} for 0 to 59. -/
def pad2 (m : ℤ) : PyStr :=
  if m < 10 then '0' :: Nat.toDigits 10 m.toNat else Nat.toDigits 10 m.toNat

/-- format_longitude from src/app.py; the trailing character is the minute mark, code point 39. -/
def format_longitude (deg : ℚ) : PyStr :=
  let p := format_longitude_parts deg
  Nat.toDigits 10 p.wholeDeg.toNat ++ "° ".data ++ ZODIAC_SIGNS.getD p.signIdx.toNat []
    ++ " ".data ++ pad2 p.minutes ++ [Char.ofNat 39]

/-- The component specification claimed for format_longitude: degree in
0..29, minutes in 0..59, sign index in 0..11, the carry behaviour when the
fraction rounds to 60 minutes, including the wrap of the degree at 29 and
of the sign from index 11 (Pisces) to 0 (Aries), and the rendering of the
string from the components. -/
def FormatLongitudeSpec (deg : ℚ) : Prop :=
  (0 ≤ (format_longitude_parts deg).wholeDeg ∧ (format_longitude_parts deg).wholeDeg ≤ 29)
  ∧ (0 ≤ (format_longitude_parts deg).minutes ∧ (format_longitude_parts deg).minutes ≤ 59)
  ∧ (0 ≤ (format_longitude_parts deg).signIdx ∧ (format_longitude_parts deg).signIdx < 12)
  ∧ (rawMinutes deg = 60 →
      (format_longitude_parts deg).minutes = 0
      ∧ (⌊degreeInSign deg⌋ ≤ 28 →
          (format_longitude_parts deg).wholeDeg = ⌊degreeInSign deg⌋ + 1
          ∧ (format_longitude_parts deg).signIdx = ⌊deg / 30⌋ % 12)
      ∧ (⌊degreeInSign deg⌋ = 29 →
          (format_longitude_parts deg).wholeDeg = 0
          ∧ (format_longitude_parts deg).signIdx = (⌊deg / 30⌋ % 12 + 1) % 12
          ∧ (⌊deg / 30⌋ % 12 = 11 → (format_longitude_parts deg).signIdx = 0)))
  ∧ format_longitude deg =
      Nat.toDigits 10 (format_longitude_parts deg).wholeDeg.toNat ++ "° ".data
      ++ ZODIAC_SIGNS.getD (format_longitude_parts deg).signIdx.toNat []
      ++ " ".data ++ pad2 (format_longitude_parts deg).minutes ++ [Char.ofNat 39]

theorem pyMod_nonneg (a : ℚ) {b : ℚ} (hb : 0 < b) : 0 ≤ pyMod a b := by
  unfold pyMod
  have h := Int.floor_le (a / b)
  rw [le_div_iff₀ hb] at h
  nlinarith

theorem pyMod_lt (a : ℚ) {b : ℚ} (hb : 0 < b) : pyMod a b < b := by
  unfold pyMod
  have h := Int.lt_floor_add_one (a / b)
  rw [div_lt_iff₀ hb] at h
  nlinarith

theorem pyRound_bounds (q : ℚ) : ⌊q⌋ ≤ pyRound q ∧ pyRound q ≤ ⌊q⌋ + 1 := by
  unfold pyRound
  split_ifs <;> omega

/-- C10: for every nonnegative longitude the formatted components have a
degree in 0..29 and minutes in 00..59; when the minute fraction rounds to
60 the degree is incremented with minutes reset to 0, and at 29 degrees the
carry wraps the degree to 0 and advances the sign index cyclically, in
particular from 11 (Pisces) back to 0 (Aries). -/
theorem C10_format_longitude_components (deg : ℚ) (_hdeg : 0 ≤ deg) :
    FormatLongitudeSpec deg := by
  have h30 : (0 : ℚ) < 30 := by norm_num
  have hds0 : 0 ≤ degreeInSign deg := pyMod_nonneg deg h30
  have hds1 : degreeInSign deg < 30 := pyMod_lt deg h30
  have hw0 : 0 ≤ ⌊degreeInSign deg⌋ := Int.floor_nonneg.mpr hds0
  have hw1 : ⌊degreeInSign deg⌋ ≤ 29 := by
    have h : ⌊degreeInSign deg⌋ < 30 := Int.floor_lt.mpr (by exact_mod_cast hds1)
    omega
  have hx0 : 0 ≤ (degreeInSign deg - (⌊degreeInSign deg⌋ : ℚ)) * 60 := by
    have h := Int.floor_le (degreeInSign deg)
    nlinarith
  have hx1 : (degreeInSign deg - (⌊degreeInSign deg⌋ : ℚ)) * 60 < 60 := by
    have h := Int.lt_floor_add_one (degreeInSign deg)
    nlinarith
  have hm0 : 0 ≤ rawMinutes deg := by
    have h1 := (pyRound_bounds ((degreeInSign deg - (⌊degreeInSign deg⌋ : ℚ)) * 60)).1
    have h2 : 0 ≤ ⌊(degreeInSign deg - (⌊degreeInSign deg⌋ : ℚ)) * 60⌋ :=
      Int.floor_nonneg.mpr hx0
    unfold rawMinutes
    omega
  have hm1 : rawMinutes deg ≤ 60 := by
    have h1 := (pyRound_bounds ((degreeInSign deg - (⌊degreeInSign deg⌋ : ℚ)) * 60)).2
    have h2 : ⌊(degreeInSign deg - (⌊degreeInSign deg⌋ : ℚ)) * 60⌋ < 60 :=
      Int.floor_lt.mpr (by exact_mod_cast hx1)
    unfold rawMinutes
    omega
  unfold FormatLongitudeSpec
  refine ⟨?_, ?_, ?_, ?_, rfl⟩
  · unfold format_longitude_parts
    split_ifs with h1 h2 <;> dsimp only <;> omega
  · unfold format_longitude_parts
    split_ifs with h1 h2 <;> dsimp only <;> omega
  · unfold format_longitude_parts
    split_ifs with h1 h2 <;> dsimp only <;> omega
  · intro hm60
    unfold format_longitude_parts
    rw [if_pos hm60]
    by_cases h29 : ⌊degreeInSign deg⌋ + 1 = 30
    · rw [if_pos h29]
      exact ⟨rfl, fun h28 => absurd h28 (by omega),
        fun _ => ⟨rfl, rfl, fun hs => by dsimp only; omega⟩⟩
    · rw [if_neg h29]
      exact ⟨rfl, fun _ => ⟨rfl, rfl⟩, fun h29x => absurd h29x (by omega)⟩

/-- Witness for C10 at 359.9999 degrees: the minutes round to 60 at 29
degrees of Pisces and the carry wraps to 0 degrees Aries. -/
theorem C10_format_longitude_components_witness :
    (0 : ℚ) ≤ 3599999/10000 ∧ FormatLongitudeSpec (3599999/10000) :=
  ⟨by norm_num, C10_format_longitude_components _ (by norm_num)⟩

/-! ### Claims C2 and C5: the return root-finder -/

/-- One signed shortest angular difference reading of the return finder:
((current longitude - natal longitude + 180) % 360) - 180.  The ephemeris
provider (an external collaborator of the core) is abstracted as the
function eph from instant to longitude of the chosen body. -/
def returnDiff (eph : ℚ → ℚ) (natal : ℚ) (jd : ℚ) : ℚ :=
  pyMod (eph jd - eph natal + 180) 360 - 180

/-- The bisection loop of solar_return_jd and lunar_return_jd.  The source
runs the loop body twenty times and returns the midpoint of the final
iteration; in the final iteration the tolerance check returns the same
midpoint that falling out of the loop would return, so the loop equals
bisectRun with fuel 19: fuel n means n full iterations followed by the
final midpoint. -/
def bisectRun (d : ℚ → ℚ) (tol : ℚ) : ℕ → ℚ → ℚ → ℚ
  | 0, low, high => (low + high) / 2
  | n + 1, low, high =>
    let mid := (low + high) / 2
    if |d mid| < tol then mid
    else if d mid > 0 then bisectRun d tol n low mid
    else bisectRun d tol n mid high

/-- solar_return_jd from src/app.py, over an abstract Sun ephemeris;
365.25 is 1461/4. -/
def solar_return_jd (eph : ℚ → ℚ) (natal_jd year tol : ℚ) : ℚ :=
  bisectRun (returnDiff eph natal_jd) tol 19
    (natal_jd + 1461/4 * year - 5) (natal_jd + 1461/4 * year + 5)

/-- lunar_return_jd from src/app.py, over an abstract Moon ephemeris;
27.321582 is 13660791/500000. -/
def lunar_return_jd (eph : ℚ → ℚ) (natal_jd month tol : ℚ) : ℚ :=
  bisectRun (returnDiff eph natal_jd) tol 19
    (natal_jd + 13660791/500000 * month - 2) (natal_jd + 13660791/500000 * month + 2)

/-- The sequence of midpoints the loop visits (stopping where the loop
would return). -/
def midTrace (d : ℚ → ℚ) (tol : ℚ) : ℕ → ℚ → ℚ → List ℚ
  | 0, low, high => [(low + high) / 2]
  | n + 1, low, high =>
    let mid := (low + high) / 2
    if |d mid| < tol then [mid]
    else if d mid > 0 then mid :: midTrace d tol n low mid
    else mid :: midTrace d tol n mid high

theorem midTrace_ne_nil (d : ℚ → ℚ) (tol : ℚ) :
    ∀ (n : ℕ) (low high : ℚ), midTrace d tol n low high ≠ [] := by
  intro n low high
  cases n with
  | zero => simp [midTrace]
  | succ m =>
    unfold midTrace
    dsimp only
    split_ifs <;> simp

theorem getLastD_of_ne_nil {l : List ℚ} (h : l ≠ []) (d1 d2 : ℚ) :
    l.getLastD d1 = l.getLastD d2 := by
  cases l with
  | nil => exact absurd rfl h
  | cons a as => rw [List.getLastD_cons, List.getLastD_cons]

theorem bisectRun_unconverged (d : ℚ → ℚ) (tol : ℚ) :
    ∀ (n : ℕ) (low high : ℚ),
      (∀ m ∈ midTrace d tol n low high, ¬(|d m| < tol)) →
      bisectRun d tol n low high = (midTrace d tol n low high).getLastD 0 := by
  intro n
  induction n with
  | zero =>
    intro low high _
    simp [bisectRun, midTrace]
  | succ k ih =>
    intro low high hm
    unfold bisectRun midTrace
    dsimp only
    unfold midTrace at hm
    dsimp only at hm
    by_cases hc : |d ((low + high) / 2)| < tol
    · exfalso
      rw [if_pos hc] at hm
      exact hm _ (List.mem_singleton.mpr rfl) hc
    · rw [if_neg hc, if_neg hc]
      rw [if_neg hc] at hm
      by_cases hd : d ((low + high) / 2) > 0
      · rw [if_pos hd, if_pos hd]
        rw [if_pos hd] at hm
        have hm2 : ∀ m ∈ midTrace d tol k low ((low + high) / 2), ¬(|d m| < tol) :=
          fun m hmm => hm m (List.mem_cons.mpr (Or.inr hmm))
        rw [ih low ((low + high) / 2) hm2, List.getLastD_cons]
        exact (getLastD_of_ne_nil (midTrace_ne_nil d tol k low ((low + high) / 2)) _ _).symm
      · rw [if_neg hd, if_neg hd]
        rw [if_neg hd] at hm
        have hm2 : ∀ m ∈ midTrace d tol k ((low + high) / 2) high, ¬(|d m| < tol) :=
          fun m hmm => hm m (List.mem_cons.mpr (Or.inr hmm))
        rw [ih ((low + high) / 2) high hm2, List.getLastD_cons]
        exact (getLastD_of_ne_nil (midTrace_ne_nil d tol k ((low + high) / 2) high) _ _).symm

/-- C2: when no midpoint of the twenty-iteration budget meets the
tolerance, the solar and the lunar return finder return the midpoint of the
final iteration, the last entry of the visited-midpoint trace; both
functions are total, so the unconverged case is returned as an approximate
result and never raises. -/
theorem C2_returns_last_midpoint_when_unconverged
    (eph : ℚ → ℚ) (natal year month tol : ℚ) :
    ((∀ m ∈ midTrace (returnDiff eph natal) tol 19
        (natal + 1461/4 * year - 5) (natal + 1461/4 * year + 5),
        ¬(|returnDiff eph natal m| < tol)) →
      solar_return_jd eph natal year tol =
        (midTrace (returnDiff eph natal) tol 19
          (natal + 1461/4 * year - 5) (natal + 1461/4 * year + 5)).getLastD 0)
    ∧ ((∀ m ∈ midTrace (returnDiff eph natal) tol 19
        (natal + 13660791/500000 * month - 2) (natal + 13660791/500000 * month + 2),
        ¬(|returnDiff eph natal m| < tol)) →
      lunar_return_jd eph natal month tol =
        (midTrace (returnDiff eph natal) tol 19
          (natal + 13660791/500000 * month - 2)
          (natal + 13660791/500000 * month + 2)).getLastD 0) :=
  ⟨fun hm => bisectRun_unconverged _ _ _ _ _ hm,
   fun hm => bisectRun_unconverged _ _ _ _ _ hm⟩

/-- Witness for C2: with the identity ephemeris from natal instant 0 the
signed difference stays far from zero on both brackets, so neither finder
converges and each returns the last midpoint of its trace. -/
theorem C2_returns_last_midpoint_when_unconverged_witness :
    ((∀ m ∈ midTrace (returnDiff id 0) (1/100000) 19
        ((0 : ℚ) + 1461/4 * 1 - 5) ((0 : ℚ) + 1461/4 * 1 + 5),
        ¬(|returnDiff id 0 m| < 1/100000))
      ∧ solar_return_jd id 0 1 (1/100000) =
        (midTrace (returnDiff id 0) (1/100000) 19
          ((0 : ℚ) + 1461/4 * 1 - 5) ((0 : ℚ) + 1461/4 * 1 + 5)).getLastD 0)
    ∧ ((∀ m ∈ midTrace (returnDiff id 0) (1/100000) 19
        ((0 : ℚ) + 13660791/500000 * 1 - 2) ((0 : ℚ) + 13660791/500000 * 1 + 2),
        ¬(|returnDiff id 0 m| < 1/100000))
      ∧ lunar_return_jd id 0 1 (1/100000) =
        (midTrace (returnDiff id 0) (1/100000) 19
          ((0 : ℚ) + 13660791/500000 * 1 - 2)
          ((0 : ℚ) + 13660791/500000 * 1 + 2)).getLastD 0) := by
  have hs : ∀ m ∈ midTrace (returnDiff id 0) (1/100000) 19
      ((0 : ℚ) + 1461/4 * 1 - 5) ((0 : ℚ) + 1461/4 * 1 + 5),
      ¬(|returnDiff id 0 m| < 1/100000) := by
    with_unfolding_all decide
  have hl : ∀ m ∈ midTrace (returnDiff id 0) (1/100000) 19
      ((0 : ℚ) + 13660791/500000 * 1 - 2) ((0 : ℚ) + 13660791/500000 * 1 + 2),
      ¬(|returnDiff id 0 m| < 1/100000) := by
    with_unfolding_all decide
  exact ⟨⟨hs, (C2_returns_last_midpoint_when_unconverged id 0 1 1 (1/100000)).1 hs⟩,
    ⟨hl, (C2_returns_last_midpoint_when_unconverged id 0 1 1 (1/100000)).2 hl⟩⟩

theorem bisect_error_bound (d : ℚ → ℚ) (tol K low0 high0 : ℚ)
    (hLip : ∀ x y, low0 ≤ x → x ≤ high0 → low0 ≤ y → y ≤ high0 →
      |d x - d y| ≤ K * |x - y|) :
    ∀ (n : ℕ) (low high : ℚ), low0 ≤ low → low ≤ high → high ≤ high0 →
      d low ≤ 0 → 0 ≤ d high →
      |d (bisectRun d tol n low high)| < tol ∨
        |d (bisectRun d tol n low high)| ≤ K * (high - low) / 2 ^ (n + 1) := by
  intro n
  induction n with
  | zero =>
    intro low high hl0 hlh hh0 hdl hdh
    right
    unfold bisectRun
    have hmid1 : low ≤ (low + high) / 2 := by linarith
    have hmid2 : (low + high) / 2 ≤ high := by linarith
    have h1 := hLip ((low + high) / 2) low (by linarith) (by linarith) hl0 (by linarith)
    have h2 := hLip high ((low + high) / 2) (by linarith) hh0 (by linarith) (by linarith)
    rw [abs_sub_le_iff] at h1 h2
    have ha1 : |(low + high) / 2 - low| = (high - low) / 2 := by
      rw [abs_of_nonneg (by linarith)]
      ring
    have ha2 : |high - (low + high) / 2| = (high - low) / 2 := by
      rw [abs_of_nonneg (by linarith)]
      ring
    rw [ha1] at h1
    rw [ha2] at h2
    rw [abs_le]
    constructor
    · have := h2.2
      have hKd : K * ((high - low) / 2) = K * (high - low) / 2 ^ (0 + 1) := by ring
      nlinarith [h2.2]
    · have hKd : K * ((high - low) / 2) = K * (high - low) / 2 ^ (0 + 1) := by ring
      nlinarith [h1.1]
  | succ k ih =>
    intro low high hl0 hlh hh0 hdl hdh
    unfold bisectRun
    dsimp only
    by_cases hc : |d ((low + high) / 2)| < tol
    · rw [if_pos hc]
      exact Or.inl hc
    · rw [if_neg hc]
      by_cases hd : d ((low + high) / 2) > 0
      · rw [if_pos hd]
        have hrec := ih low ((low + high) / 2) hl0 (by linarith) (by linarith) hdl hd.le
        rcases hrec with h | h
        · exact Or.inl h
        · right
          have heq : K * ((low + high) / 2 - low) / 2 ^ (k + 1)
              = K * (high - low) / 2 ^ (k + 1 + 1) := by ring
          rw [heq] at h
          exact h
      · rw [if_neg hd]
        have hdm : d ((low + high) / 2) ≤ 0 := not_lt.mp hd
        have hrec := ih ((low + high) / 2) high (by linarith) (by linarith) hh0 hdm hdh
        rcases hrec with h | h
        · exact Or.inl h
        · right
          have heq : K * (high - (low + high) / 2) / 2 ^ (k + 1)
              = K * (high - low) / 2 ^ (k + 1 + 1) := by ring
          rw [heq] at h
          exact h

/-- C5, amended: with the bracket of solar_return_jd for cycle one and the
default tolerance, if the signed difference function is nonpositive at the
low end of the bracket, nonnegative at the high end (the Sun longitude
passes through the natal longitude inside the bracket) and 10-Lipschitz on
the bracket (a Sun speed bound of 10 degrees per day; the real Sun moves
about 1 degree per day), then the returned instant has a signed circular
difference below 1e-4 degrees.  Monotonicity alone, as the original claim
states it, does not bound the error: see the counterexample. -/
theorem C5_solar_return_tolerance (eph : ℚ → ℚ) (natal : ℚ)
    (hlow : returnDiff eph natal (natal + 1461/4 * 1 - 5) ≤ 0)
    (hhigh : 0 ≤ returnDiff eph natal (natal + 1461/4 * 1 + 5))
    (hLip : ∀ x y, natal + 1461/4 * 1 - 5 ≤ x → x ≤ natal + 1461/4 * 1 + 5 →
      natal + 1461/4 * 1 - 5 ≤ y → y ≤ natal + 1461/4 * 1 + 5 →
      |returnDiff eph natal x - returnDiff eph natal y| ≤ 10 * |x - y|) :
    |returnDiff eph natal (solar_return_jd eph natal 1 (1/100000))| < 1/10000 := by
  have h := bisect_error_bound (returnDiff eph natal) (1/100000) 10
    (natal + 1461/4 * 1 - 5) (natal + 1461/4 * 1 + 5) hLip 19
    (natal + 1461/4 * 1 - 5) (natal + 1461/4 * 1 + 5)
    le_rfl (by linarith) le_rfl hlow hhigh
  unfold solar_return_jd
  rcases h with h | h
  · calc |returnDiff eph natal (bisectRun (returnDiff eph natal) (1/100000) 19
        (natal + 1461/4 * 1 - 5) (natal + 1461/4 * 1 + 5))| < 1/100000 := h
      _ < 1/10000 := by norm_num
  · calc |returnDiff eph natal (bisectRun (returnDiff eph natal) (1/100000) 19
        (natal + 1461/4 * 1 - 5) (natal + 1461/4 * 1 + 5))|
        ≤ 10 * ((natal + 1461/4 * 1 + 5) - (natal + 1461/4 * 1 - 5)) / 2 ^ (19 + 1) := h
      _ = 100 / 1048576 := by ring
      _ < 1/10000 := by norm_num

/-- A slow linear Sun used as witness: slope 36/37 of a degree per day,
crossing the natal longitude plus 360 inside the cycle-one bracket. -/
def sunGentle (t : ℚ) : ℚ := 36/37 * t

theorem sunGentle_diff (x : ℚ) (h1 : (1441 : ℚ)/4 ≤ x) (h2 : x ≤ 1481/4) :
    returnDiff sunGentle 0 x = 36/37 * x - 360 := by
  unfold returnDiff sunGentle pyMod
  have he : (36/37 * x - 36/37 * 0 + 180) = 36/37 * x + 180 := by ring
  rw [he]
  have hfl : ⌊(36/37 * x + 180) / 360⌋ = (1 : ℤ) := by
    rw [Int.floor_eq_iff]
    constructor
    · push_cast
      rw [le_div_iff₀ (by norm_num : (0:ℚ) < 360)]
      linarith
    · push_cast
      rw [div_lt_iff₀ (by norm_num : (0:ℚ) < 360)]
      linarith
  rw [hfl]
  push_cast
  ring

/-- Witness for C5: the gentle linear Sun satisfies the bracketing and the
Lipschitz hypotheses, so the solar return of cycle one lands within 1e-4
degrees. -/
theorem C5_solar_return_tolerance_witness :
    |returnDiff sunGentle 0 (solar_return_jd sunGentle 0 1 (1/100000))| < 1/10000 := by
  apply C5_solar_return_tolerance
  · with_unfolding_all decide
  · with_unfolding_all decide
  · intro x y hx1 hx2 hy1 hy2
    have hx1' : (1441:ℚ)/4 ≤ x := by linarith
    have hx2' : x ≤ 1481/4 := by linarith
    have hy1' : (1441:ℚ)/4 ≤ y := by linarith
    have hy2' : y ≤ 1481/4 := by linarith
    rw [sunGentle_diff x hx1' hx2', sunGentle_diff y hy1' hy2']
    have he : 36/37 * x - 360 - (36/37 * y - 360) = 36/37 * (x - y) := by ring
    rw [he, abs_mul]
    have h36 : |(36:ℚ)/37| = 36/37 := by norm_num
    rw [h36]
    exact mul_le_mul_of_nonneg_right (by norm_num) (abs_nonneg _)

/-- A Sun that increases strictly and monotonically through the natal
longitude inside the cycle-one bracket but moves 100 degrees per day near
the crossing: slow piece up to day 365, steep piece on the next fifth of a
day, slope one afterwards. -/
def sunCex (t : ℚ) : ℚ :=
  if t < 365 then 350/365 * t
  else if t ≤ 365 + 1/5 then 350 + 100 * (t - 365)
  else 370 + (t - (365 + 1/5))

theorem sunCex_strictMono : StrictMono sunCex := by
  intro x y hxy
  unfold sunCex
  split_ifs <;> linarith

set_option maxRecDepth 4000 in
/-- Counterexample to C5 as stated: sunCex increases strictly on the whole
bracket and its signed difference crosses zero inside the bracket (it
passes through the natal longitude), yet after the twenty-iteration budget
the returned instant still has a signed circular difference of at least
1e-4 degrees, because the claim carries no bound on the speed. -/
theorem C5_counterexample_monotone_insufficient :
    StrictMonoOn sunCex (Set.Icc ((0:ℚ) + 1461/4 * 1 - 5) ((0:ℚ) + 1461/4 * 1 + 5))
    ∧ returnDiff sunCex 0 ((0:ℚ) + 1461/4 * 1 - 5) < 0
    ∧ 0 < returnDiff sunCex 0 ((0:ℚ) + 1461/4 * 1 + 5)
    ∧ 1/10000 ≤ |returnDiff sunCex 0 (solar_return_jd sunCex 0 1 (1/100000))| := by
  refine ⟨sunCex_strictMono.strictMonoOn _, ?_, ?_, ?_⟩ <;> with_unfolding_all decide

/-! ### Claim C1: detect_chart_patterns.  First the order theory of the
lexicographic comparisons used by sorted(). -/

theorem lexLt_irrefl {lt : α → α → Bool} (hIr : ∀ a, lt a a = false) :
    ∀ l, lexLt lt l l = false := by
  intro l
  induction l with
  | nil => rfl
  | cons a as ih =>
    unfold lexLt
    rw [hIr a, if_neg (by simp), if_neg (by simp)]
    exact ih

theorem lexLt_trans {lt : α → α → Bool}
    (hTr : ∀ a b c, lt a b = true → lt b c = true → lt a c = true)
    (hConn : ∀ a b, lt a b = false → lt b a = false → a = b) :
    ∀ l1 l2 l3, lexLt lt l1 l2 = true → lexLt lt l2 l3 = true →
      lexLt lt l1 l3 = true := by
  intro l1
  induction l1 with
  | nil =>
    intro l2 l3 h12 h23
    cases l2 with
    | nil => exact absurd h12 (by simp [lexLt])
    | cons b bs =>
      cases l3 with
      | nil => exact absurd h23 (by simp [lexLt])
      | cons c cs => rfl
  | cons a as ih =>
    intro l2 l3 h12 h23
    cases l2 with
    | nil => exact absurd h12 (by simp [lexLt])
    | cons b bs =>
      cases l3 with
      | nil => exact absurd h23 (by simp [lexLt])
      | cons c cs =>
        unfold lexLt at h12 h23 ⊢
        by_cases hab : lt a b = true
        · by_cases hbc : lt b c = true
          · rw [if_pos (hTr a b c hab hbc)]
          · rw [if_neg hbc] at h23
            by_cases hcb : lt c b = true
            · rw [if_pos hcb] at h23
              exact absurd h23 (by simp)
            · have hbceq : b = c :=
                hConn b c (Bool.not_eq_true _ |>.mp hbc) (Bool.not_eq_true _ |>.mp hcb)
              rw [← hbceq]
              rw [if_pos hab]
        · rw [if_neg hab] at h12
          by_cases hba : lt b a = true
          · rw [if_pos hba] at h12
            exact absurd h12 (by simp)
          · have habeq : a = b :=
              hConn a b (Bool.not_eq_true _ |>.mp hab) (Bool.not_eq_true _ |>.mp hba)
            rw [if_neg hba] at h12
            subst habeq
            by_cases hac : lt a c = true
            · rw [if_pos hac]
            · rw [if_neg hac]
              rw [if_neg hac] at h23
              by_cases hca : lt c a = true
              · rw [if_pos hca] at h23
                exact absurd h23 (by simp)
              · rw [if_neg hca] at h23
                rw [if_neg hca]
                exact ih bs cs h12 h23

theorem lexLt_conn {lt : α → α → Bool}
    (hConn : ∀ a b, lt a b = false → lt b a = false → a = b) :
    ∀ l1 l2, lexLt lt l1 l2 = false → lexLt lt l2 l1 = false → l1 = l2 := by
  intro l1
  induction l1 with
  | nil =>
    intro l2 h12 _
    cases l2 with
    | nil => rfl
    | cons b bs => exact absurd h12 (by simp [lexLt])
  | cons a as ih =>
    intro l2 h12 h21
    cases l2 with
    | nil => exact absurd h21 (by simp [lexLt])
    | cons b bs =>
      unfold lexLt at h12 h21
      by_cases hab : lt a b = true
      · rw [if_pos hab] at h12
        exact absurd h12 (by simp)
      · by_cases hba : lt b a = true
        · rw [if_pos hba] at h21
          exact absurd h21 (by simp)
        · have habeq : a = b :=
            hConn a b (Bool.not_eq_true _ |>.mp hab) (Bool.not_eq_true _ |>.mp hba)
          rw [if_neg hab, if_neg hba] at h12
          rw [if_neg hba, if_neg hab] at h21
          rw [habeq, ih bs h12 h21]

theorem asym_of_irrefl_trans {lt : α → α → Bool}
    (hIr : ∀ a, lt a a = false)
    (hTr : ∀ a b c, lt a b = true → lt b c = true → lt a c = true) :
    ∀ a b, lt a b = true → lt b a = false := by
  intro a b hab
  cases hba : lt b a with
  | false => rfl
  | true => exact absurd (hTr a b a hab hba) (by rw [hIr a]; simp)

theorem negTrans_of {lt : α → α → Bool}
    (hTr : ∀ a b c, lt a b = true → lt b c = true → lt a c = true)
    (hConn : ∀ a b, lt a b = false → lt b a = false → a = b) :
    ∀ x y z, lt z x = true → lt y x = false → lt z y = true := by
  intro x y z hzx hyx
  by_cases hxy : lt x y = true
  · exact hTr z x y hzx hxy
  · have hexy : x = y := hConn x y (Bool.not_eq_true _ |>.mp hxy) hyx
    rw [← hexy]
    exact hzx

theorem charLt_irrefl : ∀ a : Char, charLt a a = false := by
  intro a
  unfold charLt
  simp

theorem charLt_trans :
    ∀ a b c : Char, charLt a b = true → charLt b c = true → charLt a c = true := by
  intro a b c hab hbc
  unfold charLt at hab hbc ⊢
  simp only [decide_eq_true_eq] at hab hbc ⊢
  omega

theorem charLt_conn :
    ∀ a b : Char, charLt a b = false → charLt b a = false → a = b := by
  intro a b hab hba
  unfold charLt at hab hba
  simp only [decide_eq_false_iff_not, not_lt] at hab hba
  have h : a.toNat = b.toNat := le_antisymm hba hab
  rw [← Char.ofNat_toNat a, ← Char.ofNat_toNat b, h]

theorem strLt_irrefl : ∀ s : PyStr, strLt s s = false :=
  lexLt_irrefl charLt_irrefl

theorem strLt_trans :
    ∀ a b c : PyStr, strLt a b = true → strLt b c = true → strLt a c = true :=
  lexLt_trans charLt_trans charLt_conn

theorem strLt_conn : ∀ a b : PyStr, strLt a b = false → strLt b a = false → a = b :=
  lexLt_conn charLt_conn

theorem tupLt_irrefl : ∀ t : List PyStr, tupLt t t = false :=
  lexLt_irrefl strLt_irrefl

theorem tupLt_trans :
    ∀ a b c : List PyStr, tupLt a b = true → tupLt b c = true → tupLt a c = true :=
  lexLt_trans strLt_trans strLt_conn

theorem tupLt_conn :
    ∀ a b : List PyStr, tupLt a b = false → tupLt b a = false → a = b :=
  lexLt_conn strLt_conn

theorem pairwise_and {R S : α → α → Prop} :
    ∀ {l : List α}, l.Pairwise R → l.Pairwise S → l.Pairwise (fun a b => R a b ∧ S a b) := by
  intro l
  induction l with
  | nil => intro _ _; exact List.Pairwise.nil
  | cons x xs ih =>
    intro h1 h2
    rcases List.pairwise_cons.mp h1 with ⟨hx1, hxs1⟩
    rcases List.pairwise_cons.mp h2 with ⟨hx2, hxs2⟩
    exact List.pairwise_cons.mpr ⟨fun y hy => ⟨hx1 y hy, hx2 y hy⟩, ih hxs1 hxs2⟩

/-- A sort of a duplicate-free list by a strict linear order is strictly
sorted: successive elements strictly increase. -/
theorem sortS_pairwise_strict {lt : α → α → Bool}
    (hIr : ∀ a, lt a a = false)
    (hTr : ∀ a b c, lt a b = true → lt b c = true → lt a c = true)
    (hConn : ∀ a b, lt a b = false → lt b a = false → a = b)
    {l : List α} (hnd : l.Nodup) :
    (sortS lt l).Pairwise (fun a b => lt a b = true) := by
  have h1 := sortS_pairwise (asym_of_irrefl_trans hIr hTr) (negTrans_of hTr hConn) l
  have h2 : (sortS lt l).Nodup := (sortS_perm lt l).nodup_iff.mpr hnd
  refine (pairwise_and h1 h2).imp ?_
  rintro a b ⟨hba, hne⟩
  cases hab : lt a b with
  | true => rfl
  | false => exact absurd (hConn a b hab hba) hne

theorem sortS_sorted_str (l : List PyStr) :
    (sortS strLt l).Pairwise (fun a b => strLt b a = false) :=
  sortS_pairwise (asym_of_irrefl_trans strLt_irrefl strLt_trans)
    (negTrans_of strLt_trans strLt_conn) l

/-- Accumulating Python set.add over a candidate stream: the set content in
insertion order. -/
def collectSet [DecidableEq α] (f : β → Option α) (l : List β) : List α :=
  l.foldl (fun acc b =>
    match f b with
    | some a => setInsert a acc
    | none => acc) []

theorem setInsert_of_mem [DecidableEq α] {a : α} {l : List α} (h : a ∈ l) :
    setInsert a l = l := by
  unfold setInsert
  rw [if_pos h]

theorem setInsert_of_not_mem [DecidableEq α] {a : α} {l : List α} (h : a ∉ l) :
    setInsert a l = l ++ [a] := by
  unfold setInsert
  rw [if_neg h]

theorem foldl_setInsert_split [DecidableEq α] :
    ∀ (l acc : List α), ∃ t : List α,
      l.foldl (fun acc b => setInsert b acc) acc = acc ++ t ∧ List.Sublist t l := by
  intro l
  induction l with
  | nil =>
    intro acc
    exact ⟨[], by simp, List.Sublist.refl []⟩
  | cons b bs ih =>
    intro acc
    rw [List.foldl_cons]
    by_cases hb : b ∈ acc
    · rw [setInsert_of_mem hb]
      rcases ih acc with ⟨t, ht, hsub⟩
      exact ⟨t, ht, hsub.cons b⟩
    · rw [setInsert_of_not_mem hb]
      rcases ih (acc ++ [b]) with ⟨t, ht, hsub⟩
      refine ⟨b :: t, ?_, hsub.cons₂ b⟩
      rw [ht, List.append_assoc]
      rfl

/-- Collecting a stream into a set keeps the stream order: the result is a
sublist (order-preserving subsequence) of the stream. -/
theorem collectSet_some_sublist [DecidableEq α] (l : List α) :
    List.Sublist (collectSet (fun r : α => some r) l) l := by
  have hrfl : collectSet (fun r : α => some r) l
      = l.foldl (fun acc b => setInsert b acc) [] := rfl
  rcases foldl_setInsert_split l [] with ⟨t, ht, hsub⟩
  rw [hrfl, ht, List.nil_append]
  exact hsub

theorem collectSet_nodup_aux [DecidableEq α] (f : β → Option α) :
    ∀ (l : List β) (acc : List α), acc.Nodup →
      (l.foldl (fun acc b =>
        match f b with
        | some a => setInsert a acc
        | none => acc) acc).Nodup := by
  intro l
  induction l with
  | nil => intro acc h; exact h
  | cons x xs ih =>
    intro acc h
    rw [List.foldl_cons]
    cases f x with
    | none => exact ih acc h
    | some a =>
      dsimp only
      exact ih (setInsert a acc) (nodup_setInsert h)

theorem collectSet_nodup [DecidableEq α] (f : β → Option α) (l : List β) :
    (collectSet f l).Nodup :=
  collectSet_nodup_aux f l [] List.nodup_nil

theorem mem_collectSet_aux [DecidableEq α] (f : β → Option α) :
    ∀ (l : List β) (acc : List α) (x : α),
      x ∈ l.foldl (fun acc b =>
        match f b with
        | some a => setInsert a acc
        | none => acc) acc ↔ x ∈ acc ∨ ∃ b ∈ l, f b = some x := by
  intro l
  induction l with
  | nil => intro acc x; simp
  | cons y ys ih =>
    intro acc x
    rw [List.foldl_cons]
    cases hf : f y with
    | none =>
      dsimp only
      rw [ih]
      constructor
      · rintro (h | ⟨b, hb, hbx⟩)
        · exact Or.inl h
        · exact Or.inr ⟨b, List.mem_cons.mpr (Or.inr hb), hbx⟩
      · rintro (h | ⟨b, hb, hbx⟩)
        · exact Or.inl h
        · rcases List.mem_cons.mp hb with rfl | hb2
          · rw [hf] at hbx
            exact absurd hbx (by simp)
          · exact Or.inr ⟨b, hb2, hbx⟩
    | some a =>
      dsimp only
      rw [ih]
      constructor
      · rintro (h | ⟨b, hb, hbx⟩)
        · rcases mem_setInsert.mp h with rfl | h2
          · exact Or.inr ⟨y, List.mem_cons.mpr (Or.inl rfl), hf⟩
          · exact Or.inl h2
        · exact Or.inr ⟨b, List.mem_cons.mpr (Or.inr hb), hbx⟩
      · rintro (h | ⟨b, hb, hbx⟩)
        · exact Or.inl (mem_setInsert.mpr (Or.inr h))
        · rcases List.mem_cons.mp hb with rfl | hb2
          · rw [hf] at hbx
            exact Or.inl (mem_setInsert.mpr (Or.inl (Option.some.inj hbx).symm))
          · exact Or.inr ⟨b, hb2, hbx⟩

theorem mem_collectSet [DecidableEq α] {f : β → Option α} {l : List β} {x : α} :
    x ∈ collectSet f l ↔ ∃ b ∈ l, f b = some x := by
  unfold collectSet
  rw [mem_collectSet_aux]
  simp

/-- The undirected adjacency map the first loop of detect_chart_patterns
accumulates for one aspect name (used for Trine, Square, Quincunx):
the neighbour set of p in insertion order. -/
def adjOf (aname : PyStr) (aspects : List Aspect) (p : PyStr) : List PyStr :=
  aspects.foldl (fun acc a =>
    if a.aspect = aname then
      if a.planet1 = p then setInsert a.planet2 acc
      else if a.planet2 = p then setInsert a.planet1 acc
      else acc
    else acc) []

/-- The key set of that adjacency map (trines.keys() for Trine). -/
def keysOf (aname : PyStr) (aspects : List Aspect) : List PyStr :=
  aspects.foldl (fun acc a =>
    if a.aspect = aname then setInsert a.planet2 (setInsert a.planet1 acc) else acc) []

/-- The bodies set accumulated from every aspect. -/
def bodiesOf (aspects : List Aspect) : List PyStr :=
  aspects.foldl (fun acc a => setInsert a.planet2 (setInsert a.planet1 acc)) []

/-- frozenset of two body names, canonically a sorted duplicate-free
list. -/
def canonPair (a b : PyStr) : List PyStr := sortS strLt (setInsert b [a])

/-- The sextile pair set (a set of frozensets in the source). -/
def sextilesOf (aspects : List Aspect) : List (List PyStr) :=
  aspects.foldl (fun acc a =>
    if a.aspect = "Sextile".data then setInsert (canonPair a.planet1 a.planet2) acc
    else acc) []

/-- The opposition pair list, in aspect order. -/
def oppositionsOf (aspects : List Aspect) : List (PyStr × PyStr) :=
  aspects.filterMap fun a =>
    if a.aspect = "Opposition".data then some (a.planet1, a.planet2) else none

/-- The opposition frozenset set used by the kite detection. -/
def oppSetOf (aspects : List Aspect) : List (List PyStr) :=
  collectSet (fun xy : PyStr × PyStr => some (canonPair xy.1 xy.2)) (oppositionsOf aspects)

/-- itertools.combinations(l, 3) in the same enumeration order. -/
def combos3 : List α → List (α × α × α)
  | [] => []
  | x :: xs => (pairList xs).map (fun yz => (x, yz.1, yz.2)) ++ combos3 xs

/-- The grand trine set of detect_chart_patterns, returned sorted. -/
def grandTrinesOf (aspects : List Aspect) : List (List PyStr) :=
  let trines := adjOf "Trine".data aspects
  let triad := sortS strLt (keysOf "Trine".data aspects)
  sortS tupLt (collectSet (fun abc : PyStr × PyStr × PyStr =>
    if abc.2.1 ∈ trines abc.1 ∧ abc.2.2 ∈ trines abc.1 ∧ abc.2.2 ∈ trines abc.2.1 then
      some (sortS strLt [abc.1, abc.2.1, abc.2.2])
    else none) (combos3 triad))

/-- The t-square tuples, returned sorted: for each opposition pair the
common square neighbours are the apexes. -/
def tSquareTuplesOf (aspects : List Aspect) : List (List PyStr) :=
  let squareNbrs := adjOf "Square".data aspects
  sortS tupLt (collectSet
    (fun xyz : PyStr × PyStr × PyStr => some (sortS strLt [xyz.1, xyz.2.1, xyz.2.2]))
    ((oppositionsOf aspects).flatMap fun xy =>
      ((squareNbrs xy.1).filter (fun z => decide (z ∈ squareNbrs xy.2))).map
        (fun z => (xy.1, xy.2, z))))

/-- The zodiac sign of a body from the positions map
(ZODIAC_SIGNS[int(positions[body] // 30) % 12]); a missing body reads
longitude 0, where the source would raise KeyError - the claims only use
aspect participants that are position keys. -/
def signOf (positions : List (PyStr × ℚ)) (body : PyStr) : PyStr :=
  ZODIAC_SIGNS.getD (⌊(lookupPos body positions).getD 0 / 30⌋ % 12).toNat []

/-- The modality of a sign: the first matching group of MODALITY_SIGNS. -/
def modalityOf (sign : PyStr) : Option PyStr :=
  (MODALITY_SIGNS.find? (fun ms => decide (sign ∈ ms.2))).map Prod.fst

/-- The modality emphasis of a t-square: the first modality when all three
participants share it. -/
def tSquareEmphasis (positions : List (PyStr × ℚ)) (ts : List PyStr) : Option PyStr :=
  let modes := ts.map (fun body => modalityOf (signOf positions body))
  match modes with
  | [] => none
  | m :: _ => if modes.count m = 3 then m else none

structure TSquare where
  planets : List PyStr
  type : Option PyStr
deriving DecidableEq, Repr

/-- The kite set: for a grand trine and an outside body in opposition with
one vertex and sextile with the other two, the four bodies sorted. -/
def kitesOf (aspects : List Aspect) : List (List PyStr) :=
  let oppSet := oppSetOf aspects
  let sext := sextilesOf aspects
  let bodies := bodiesOf aspects
  sortS tupLt (collectSet (fun td : List PyStr × PyStr =>
    if td.1.any (fun opp =>
        decide (canonPair td.2 opp ∈ oppSet)
        && match td.1.filter (fun p => decide (p ≠ opp)) with
          | [r0, r1] => decide (canonPair td.2 r0 ∈ sext) && decide (canonPair td.2 r1 ∈ sext)
          | _ => false) = true then
      some (sortS strLt (td.2 :: td.1))
    else none)
    ((grandTrinesOf aspects).flatMap fun tri =>
      (bodies.filter (fun d => decide (d ∉ tri))).map (fun d => (tri, d))))

/-- The yod set: a sextile pair with a common quincunx body. -/
def yodsOf (aspects : List Aspect) : List (List PyStr) :=
  -- The catch-all branch below covers a sextile frozenset that is not a
  -- two-element set; there the source would fail while unpacking a, b, a
  -- case that never arises from aspects between distinct bodies.
  let sext := sextilesOf aspects
  let quinc := adjOf "Quincunx".data aspects
  sortS tupLt (collectSet
    (fun pc : List PyStr × PyStr => some (sortS strLt (pc.1 ++ [pc.2])))
    (sext.flatMap fun pr =>
      match pr with
      | [a, b] => ((quinc a).filter (fun c => decide (c ∈ quinc b))).map (fun c => ([a, b], c))
      | _ => []))

structure Stellium where
  sign : PyStr
  planets : List PyStr
deriving DecidableEq, Repr

/-- The stellium records one zodiac sign contributes, in window-start
order: the bodies of the sign sorted by degree within the sign, and every
window of at least three bodies spanning at most 8 degrees. -/
def stelliumWindows (positions : List (PyStr × ℚ)) (idx : ℕ) : List Stellium :=
  let items0 := positions.filterMap fun kv =>
    if (⌊kv.2 / 30⌋ % 12).toNat = idx then some (kv.1, pyMod kv.2 30) else none
  if items0.length < 3 then [] else
  let items := sortS (fun a b : PyStr × ℚ => decide (a.2 < b.2)) items0
  (List.range items.length).filterMap fun i =>
    let base := (items.getD i ([], 0)).2
    let window := (items.drop i).takeWhile (fun t => decide (t.2 - base ≤ 8))
    if 3 ≤ window.length then
      some ⟨ZODIAC_SIGNS.getD idx [], sortS strLt (window.map Prod.fst)⟩
    else none

/-- The stream of stellium records as the source generates them: zodiac
sign indices 0 to 11 in order, windows in start order within a sign. -/
def stelliumCandidates (positions : List (PyStr × ℚ)) : List Stellium :=
  (List.range 12).flatMap (stelliumWindows positions)

/-- The stellium list: the candidate stream with duplicates dropped
keeping the first occurrence (if record not in stelliums). -/
def stelliumsOf (positions : List (PyStr × ℚ)) : List Stellium :=
  if positions.isEmpty then [] else
  collectSet (fun r : Stellium => some r) (stelliumCandidates positions)

structure ChartPatterns where
  grand_trines : List (List PyStr)
  t_squares : List TSquare
  kites : List (List PyStr)
  yods : List (List PyStr)
  stelliums : List Stellium
deriving DecidableEq, Repr

/-- detect_chart_patterns from src/app.py.  The Python parameter default
positions=None and the truthiness test if positions: map to the empty
list. -/
def detect_chart_patterns (aspects : List Aspect)
    (positions : List (PyStr × ℚ)) : ChartPatterns :=
  { grand_trines := grandTrinesOf aspects
    t_squares := (tSquareTuplesOf aspects).map fun ts =>
      ⟨ts, if positions.isEmpty then none else tSquareEmphasis positions ts⟩
    kites := kitesOf aspects
    yods := yodsOf aspects
    stelliums := stelliumsOf positions }

theorem grandTrines_pairwise (aspects : List Aspect) :
    (grandTrinesOf aspects).Pairwise (fun a b => tupLt a b = true) := by
  unfold grandTrinesOf
  exact sortS_pairwise_strict tupLt_irrefl tupLt_trans tupLt_conn (collectSet_nodup _ _)

theorem grandTrines_mem_sorted (aspects : List Aspect) :
    ∀ t ∈ grandTrinesOf aspects, t.Pairwise (fun a b => strLt b a = false) := by
  intro t ht
  simp only [grandTrinesOf] at ht
  rw [mem_sortS] at ht
  rcases mem_collectSet.mp ht with ⟨abc, _, hf⟩
  by_cases hc : abc.2.1 ∈ adjOf "Trine".data aspects abc.1
      ∧ abc.2.2 ∈ adjOf "Trine".data aspects abc.1
      ∧ abc.2.2 ∈ adjOf "Trine".data aspects abc.2.1
  · rw [if_pos hc] at hf
    rw [← Option.some.inj hf]
    exact sortS_sorted_str _
  · rw [if_neg hc] at hf
    exact absurd hf (by simp)

theorem tSquareTuples_pairwise (aspects : List Aspect) :
    (tSquareTuplesOf aspects).Pairwise (fun a b => tupLt a b = true) := by
  unfold tSquareTuplesOf
  exact sortS_pairwise_strict tupLt_irrefl tupLt_trans tupLt_conn (collectSet_nodup _ _)

theorem tSquareTuples_mem_sorted (aspects : List Aspect) :
    ∀ t ∈ tSquareTuplesOf aspects, t.Pairwise (fun a b => strLt b a = false) := by
  intro t ht
  simp only [tSquareTuplesOf] at ht
  rw [mem_sortS] at ht
  rcases mem_collectSet.mp ht with ⟨xyz, _, hf⟩
  rw [← Option.some.inj hf]
  exact sortS_sorted_str _

theorem kites_pairwise (aspects : List Aspect) :
    (kitesOf aspects).Pairwise (fun a b => tupLt a b = true) := by
  unfold kitesOf
  exact sortS_pairwise_strict tupLt_irrefl tupLt_trans tupLt_conn (collectSet_nodup _ _)

theorem kites_mem_sorted (aspects : List Aspect) :
    ∀ t ∈ kitesOf aspects, t.Pairwise (fun a b => strLt b a = false) := by
  intro t ht
  simp only [kitesOf] at ht
  rw [mem_sortS] at ht
  rcases mem_collectSet.mp ht with ⟨td, _, hf⟩
  by_cases hc : td.1.any (fun opp =>
      decide (canonPair td.2 opp ∈ oppSetOf aspects)
      && match td.1.filter (fun p => decide (p ≠ opp)) with
        | [r0, r1] => decide (canonPair td.2 r0 ∈ sextilesOf aspects)
            && decide (canonPair td.2 r1 ∈ sextilesOf aspects)
        | _ => false) = true
  · rw [if_pos hc] at hf
    rw [← Option.some.inj hf]
    exact sortS_sorted_str _
  · rw [if_neg hc] at hf
    exact absurd hf (by simp)

theorem yods_pairwise (aspects : List Aspect) :
    (yodsOf aspects).Pairwise (fun a b => tupLt a b = true) := by
  unfold yodsOf
  exact sortS_pairwise_strict tupLt_irrefl tupLt_trans tupLt_conn (collectSet_nodup _ _)

theorem yods_mem_sorted (aspects : List Aspect) :
    ∀ t ∈ yodsOf aspects, t.Pairwise (fun a b => strLt b a = false) := by
  intro t ht
  simp only [yodsOf] at ht
  rw [mem_sortS] at ht
  rcases mem_collectSet.mp ht with ⟨pc, _, hf⟩
  rw [← Option.some.inj hf]
  exact sortS_sorted_str _

theorem stelliums_nodup (positions : List (PyStr × ℚ)) :
    (stelliumsOf positions).Nodup := by
  unfold stelliumsOf
  by_cases h : positions.isEmpty
  · rw [if_pos h]
    exact List.nodup_nil
  · rw [if_neg h]
    exact collectSet_nodup _ _

theorem stelliumWindows_shape (positions : List (PyStr × ℚ)) (idx : ℕ) :
    ∀ r ∈ stelliumWindows positions idx,
      r.sign = ZODIAC_SIGNS.getD idx []
      ∧ r.planets.Pairwise (fun a b => strLt b a = false) := by
  intro r hr
  simp only [stelliumWindows] at hr
  by_cases hlen : (positions.filterMap fun kv =>
      if (⌊kv.2 / 30⌋ % 12).toNat = idx then some (kv.1, pyMod kv.2 30) else none).length < 3
  · rw [if_pos hlen] at hr
    exact absurd hr (by simp)
  · rw [if_neg hlen] at hr
    rcases List.mem_filterMap.mp hr with ⟨i, _, hfi⟩
    by_cases hw : 3 ≤ ((((sortS (fun a b : PyStr × ℚ => decide (a.2 < b.2))
        (positions.filterMap fun kv =>
          if (⌊kv.2 / 30⌋ % 12).toNat = idx
          then some (kv.1, pyMod kv.2 30) else none))).drop i).takeWhile
        (fun t => decide (t.2 - ((sortS (fun a b : PyStr × ℚ => decide (a.2 < b.2))
          (positions.filterMap fun kv =>
            if (⌊kv.2 / 30⌋ % 12).toNat = idx
            then some (kv.1, pyMod kv.2 30) else none)).getD i ([], 0)).2 ≤ 8))).length
    · rw [if_pos hw] at hfi
      rw [← Option.some.inj hfi]
      exact ⟨rfl, sortS_sorted_str _⟩
    · rw [if_neg hw] at hfi
      exact absurd hfi (by simp)

theorem mem_stelliums_mem_candidates {positions : List (PyStr × ℚ)} {s : Stellium}
    (hs : s ∈ stelliumsOf positions) : s ∈ stelliumCandidates positions := by
  unfold stelliumsOf at hs
  by_cases h : positions.isEmpty
  · rw [if_pos h] at hs
    exact absurd hs (by simp)
  · rw [if_neg h] at hs
    rcases mem_collectSet.mp hs with ⟨r, hr, hf⟩
    rw [← Option.some.inj hf]
    exact hr

theorem stelliums_mem_sorted (positions : List (PyStr × ℚ)) :
    ∀ s ∈ stelliumsOf positions, s.planets.Pairwise (fun a b => strLt b a = false) := by
  intro s hs
  rcases List.mem_flatMap.mp (mem_stelliums_mem_candidates hs) with ⟨idx, _, hin⟩
  exact (stelliumWindows_shape positions idx s hin).2

/-- The zodiac-sign index a stellium record carries: the position of its
sign name in ZODIAC_SIGNS. -/
def stelliumSignIdx (s : Stellium) : ℕ :=
  ZODIAC_SIGNS.findIdx (fun z => decide (z = s.sign))

theorem stelliumSignIdx_getD : ∀ i, i < 12 →
    ZODIAC_SIGNS.findIdx (fun z => decide (z = ZODIAC_SIGNS.getD i [])) = i := by
  decide

theorem stelliumWindows_signIdx (positions : List (PyStr × ℚ)) :
    ∀ i, i < 12 → ∀ r ∈ stelliumWindows positions i, stelliumSignIdx r = i := by
  intro i hi r hr
  have hsign := (stelliumWindows_shape positions i r hr).1
  unfold stelliumSignIdx
  rw [hsign]
  exact stelliumSignIdx_getD i hi

theorem flatMap_signIdx_pairwise (g : ℕ → List Stellium) :
    ∀ xs : List ℕ, xs.Pairwise (fun a b => a ≤ b) →
      (∀ i ∈ xs, ∀ r ∈ g i, stelliumSignIdx r = i) →
      (xs.flatMap g).Pairwise (fun a b => stelliumSignIdx a ≤ stelliumSignIdx b) := by
  intro xs
  induction xs with
  | nil =>
    intro _ _
    simp
  | cons i rest ih =>
    intro hp hmem
    rw [List.flatMap_cons, List.pairwise_append]
    rcases List.pairwise_cons.mp hp with ⟨hhead, htail⟩
    refine ⟨?_, ih htail (fun j hj => hmem j (List.mem_cons.mpr (Or.inr hj))), ?_⟩
    · refine List.pairwise_of_forall_mem_list ?_
      intro a ha b hb
      rw [hmem i (List.mem_cons.mpr (Or.inl rfl)) a ha,
        hmem i (List.mem_cons.mpr (Or.inl rfl)) b hb]
    · intro a ha b hb
      rcases List.mem_flatMap.mp hb with ⟨j, hj, hbj⟩
      rw [hmem i (List.mem_cons.mpr (Or.inl rfl)) a ha,
        hmem j (List.mem_cons.mpr (Or.inr hj)) b hbj]
      exact hhead j hj

theorem stelliumCandidates_sign_pairwise (positions : List (PyStr × ℚ)) :
    (stelliumCandidates positions).Pairwise
      (fun a b => stelliumSignIdx a ≤ stelliumSignIdx b) := by
  unfold stelliumCandidates
  refine flatMap_signIdx_pairwise _ _ ?_ ?_
  · exact (List.pairwise_lt_range 12).imp le_of_lt
  · intro i hi
    exact stelliumWindows_signIdx positions i (List.mem_range.mp hi)

/-- The stellium output preserves the candidate-stream order: it is an
order-preserving subsequence of the generation stream (sign index 0 to 11,
windows in start order). -/
theorem stelliums_sublist_candidates (positions : List (PyStr × ℚ)) :
    List.Sublist (stelliumsOf positions) (stelliumCandidates positions) := by
  unfold stelliumsOf
  by_cases h : positions.isEmpty
  · rw [if_pos h]
    exact List.nil_sublist _
  · rw [if_neg h]
    exact collectSet_some_sublist _

/-- Every generated stellium record appears in the output: together with
the sublist property and deduplication, the output is exactly the
generation stream with later duplicates dropped. -/
theorem stelliums_complete (positions : List (PyStr × ℚ)) :
    ∀ r ∈ stelliumCandidates positions, r ∈ stelliumsOf positions := by
  cases positions with
  | nil =>
    intro r hr
    have hc : stelliumCandidates [] = [] := rfl
    rw [hc] at hr
    exact absurd hr (by simp)
  | cons p ps =>
    intro r hr
    unfold stelliumsOf
    rw [if_neg (by simp)]
    exact mem_collectSet.mpr ⟨r, hr, rfl⟩

/-- The stellium list is sorted by zodiac-sign index. -/
theorem stelliums_sign_sorted (positions : List (PyStr × ℚ)) :
    (stelliumsOf positions).Pairwise
      (fun a b => stelliumSignIdx a ≤ stelliumSignIdx b) :=
  List.Pairwise.sublist (stelliums_sublist_candidates positions)
    (stelliumCandidates_sign_pairwise positions)

/-- The amended collection discipline of detect_chart_patterns, for an
arbitrary aspect list and positions map: grand trines, t-squares, kites
and yods are strictly lexicographically sorted (hence deduplicated) with
internally sorted participant tuples; stelliums are deduplicated with
internally sorted participant tuples, and the stellium list keeps the
generation order (an order-preserving subsequence of the candidate
stream, containing every candidate), in particular it is sorted by
zodiac-sign index; it is not sorted lexicographically. -/
def PatternCollectionsSpec (aspects : List Aspect) (positions : List (PyStr × ℚ)) : Prop :=
  (detect_chart_patterns aspects positions).grand_trines.Pairwise
      (fun a b => tupLt a b = true)
  ∧ (∀ t ∈ (detect_chart_patterns aspects positions).grand_trines,
      t.Pairwise (fun a b => strLt b a = false))
  ∧ ((detect_chart_patterns aspects positions).t_squares.map
      TSquare.planets).Pairwise (fun a b => tupLt a b = true)
  ∧ (∀ ts ∈ (detect_chart_patterns aspects positions).t_squares,
      ts.planets.Pairwise (fun a b => strLt b a = false))
  ∧ (detect_chart_patterns aspects positions).kites.Pairwise
      (fun a b => tupLt a b = true)
  ∧ (∀ t ∈ (detect_chart_patterns aspects positions).kites,
      t.Pairwise (fun a b => strLt b a = false))
  ∧ (detect_chart_patterns aspects positions).yods.Pairwise
      (fun a b => tupLt a b = true)
  ∧ (∀ t ∈ (detect_chart_patterns aspects positions).yods,
      t.Pairwise (fun a b => strLt b a = false))
  ∧ (detect_chart_patterns aspects positions).stelliums.Nodup
  ∧ (∀ s ∈ (detect_chart_patterns aspects positions).stelliums,
      s.planets.Pairwise (fun a b => strLt b a = false))
  ∧ List.Sublist (detect_chart_patterns aspects positions).stelliums
      (stelliumCandidates positions)
  ∧ (∀ r ∈ stelliumCandidates positions,
      r ∈ (detect_chart_patterns aspects positions).stelliums)
  ∧ (detect_chart_patterns aspects positions).stelliums.Pairwise
      (fun a b => stelliumSignIdx a ≤ stelliumSignIdx b)

/-- C1, amended: for every aspect list and positions map given to
detect_chart_patterns, the grand trine, t-square, kite and yod collections
are deduplicated, internally sorted and listed in lexicographic order of
the canonical tuples; the stellium collection is deduplicated with
internally sorted tuples and is listed in generation order (ascending
zodiac-sign index, then window start position, keeping the first
occurrence of each record), which is in general not the lexicographic
order of the canonical tuples (see the counterexample); either way the
output order is deterministic. -/
theorem C1_pattern_collections (aspects : List Aspect) (positions : List (PyStr × ℚ)) :
    PatternCollectionsSpec aspects positions := by
  unfold PatternCollectionsSpec
  refine ⟨grandTrines_pairwise _, grandTrines_mem_sorted _, ?_, ?_,
    kites_pairwise _, kites_mem_sorted _, yods_pairwise _, yods_mem_sorted _,
    stelliums_nodup _, stelliums_mem_sorted _,
    stelliums_sublist_candidates _, stelliums_complete _, stelliums_sign_sorted _⟩
  · have heq : ((detect_chart_patterns aspects positions).t_squares.map
        TSquare.planets) = tSquareTuplesOf aspects := by
      unfold detect_chart_patterns
      dsimp only
      rw [List.map_map]
      have : (TSquare.planets ∘ fun ts =>
          (⟨ts, if positions.isEmpty then none else tSquareEmphasis positions ts⟩ : TSquare))
          = fun ts => ts := rfl
      rw [this]
      exact List.map_id _
    rw [heq]
    exact tSquareTuples_pairwise _
  · intro ts hts
    unfold detect_chart_patterns at hts
    dsimp only at hts
    rcases List.mem_map.mp hts with ⟨t, ht, rfl⟩
    exact tSquareTuples_mem_sorted _ t ht

set_option maxRecDepth 8000 in
/-- Counterexample to C1 as stated: with three bodies early in Aries and
three in Aquarius, the stellium list comes out in zodiac-sign order, Aries
before Aquarius, which is not the lexicographic order of the canonical
tuples, neither on sign-and-planets tuples nor on the planet tuples
alone. -/
theorem C1_counterexample_stelliums_not_lex :
    ¬ (((detect_chart_patterns
        (compute_aspects [("Za".data, 0), ("Zb".data, 1), ("Zc".data, 2),
          ("Aa".data, 300), ("Ab".data, 301), ("Ac".data, 302)])
        [("Za".data, 0), ("Zb".data, 1), ("Zc".data, 2),
          ("Aa".data, 300), ("Ab".data, 301), ("Ac".data, 302)]).stelliums.map
        (fun s => s.sign :: s.planets)).Pairwise (fun a b => tupLt a b = true))
    ∧ ¬ (((detect_chart_patterns
        (compute_aspects [("Za".data, 0), ("Zb".data, 1), ("Zc".data, 2),
          ("Aa".data, 300), ("Ab".data, 301), ("Ac".data, 302)])
        [("Za".data, 0), ("Zb".data, 1), ("Zc".data, 2),
          ("Aa".data, 300), ("Ab".data, 301), ("Ac".data, 302)]).stelliums.map
        Stellium.planets).Pairwise (fun a b => tupLt a b = true)) := by
  constructor <;> with_unfolding_all decide
